import Mathlib

/-!
Verification of the CodeSense static analyzer (`backend/code_analyzer.py`).

This file gives a shallow embedding of the analyzer's algorithmic core and
proves (or refutes) the specified properties about it:

* `simulate_graph_traversal` — the BFS/DFS graph-traversal simulator
  (`code_analyzer.py`, lines 296-423);
* `GraphDetector.detect_algorithm` — the heuristic algorithm classifier
  (lines 232-289);
* `generate_execution_steps` with its inner `process_statement` — the
  step-synthesis pipeline (lines 430-812).

Modelling conventions, stated once here:

* Node identifiers and Python values are modelled generically (`α` with
  decidable equality) resp. by the inductive `PVal`.  Python truthiness is
  a parameter `falsy : α → Bool` (`0`, `""`, empty containers are falsy).
* Python's `sorted` over node identifiers is a parameter `le : α → α → Bool`
  fed to an insertion sort; for homogeneous `int`/`str` keys this matches
  CPython (heterogeneous keys raise `TypeError`, which the outermost
  `except` of `generate_execution_steps` converts into one error step —
  represented by the `ParseOutcome.exn` input case).
* `list(visited)` iterates a Python `set`.  Its order is deterministic only
  given the process's string-hash seed; we model it as an oracle
  `σ : List α → List α` applied to the insertion-ordered list of visited
  nodes.  `SetIterOrd σ` says `σ` returns each distinct element exactly
  once, which is all CPython guarantees across processes.
* `calculate_graph_positions` computes a circle layout with `math.cos/sin`;
  IEEE floats are not embeddable, and the layout is a pure deterministic
  function of the ordered node list, so positions are modelled as the
  node's index in that list.
* CPython's parser itself is not part of the repository; the outcome of
  `ast.parse` is therefore an input (`ParseOutcome`), and the AST is the
  type `Stmt`/`PExpr` below.
-/

/-! ## String helpers (Python `str.lower` and the `in` substring test) -/

/-- ASCII lower-casing of one character, as `str.lower` does on ASCII. -/
def lowerChar (c : Char) : Char :=
  if 65 ≤ c.toNat ∧ c.toNat ≤ 90 then Char.ofNat (c.toNat + 32) else c

/-- Python `s.lower()` (the analyzer only lower-cases ASCII source text). -/
def strLower (s : String) : String := ⟨s.data.map lowerChar⟩

/-- Contiguous-sublist test on character lists. -/
def isSubList (ns : List Char) : List Char → Bool
  | [] => ns.isEmpty
  | c :: cs => List.isPrefixOf ns (c :: cs) || isSubList ns cs

/-- Python `needle in hay` for strings (substring containment). -/
def strIn (needle hay : String) : Bool :=
  needle.data.isEmpty || isSubList needle.data hay.data

/-! ## Generic sorting (Python `sorted`)

`sorted` is modelled by an insertion sort over the comparison `le`.
The membership/permutation lemmas below hold for an arbitrary `le`,
which is all the claims need. -/

def insertLe {α : Type} (le : α → α → Bool) (x : α) : List α → List α
  | [] => [x]
  | y :: ys => if le x y then x :: y :: ys else y :: insertLe le x ys

def sortBy {α : Type} (le : α → α → Bool) : List α → List α
  | [] => []
  | x :: xs => insertLe le x (sortBy le xs)

theorem perm_insertLe {α : Type} (le : α → α → Bool) (x : α) :
    ∀ l : List α, (insertLe le x l).Perm (x :: l) := by
  intro l
  induction l with
  | nil => simp [insertLe]
  | cons y ys ih =>
    simp only [insertLe]
    split
    · exact List.Perm.refl _
    · exact ((ih.cons y).trans (List.Perm.swap x y ys))

theorem perm_sortBy {α : Type} (le : α → α → Bool) :
    ∀ l : List α, (sortBy le l).Perm l := by
  intro l
  induction l with
  | nil => exact List.Perm.refl _
  | cons x xs ih =>
    exact (perm_insertLe le x (sortBy le xs)).trans (ih.cons x)

theorem mem_sortBy {α : Type} (le : α → α → Bool) (a : α) (l : List α) :
    a ∈ sortBy le l ↔ a ∈ l :=
  (perm_sortBy le l).mem_iff

theorem nodup_sortBy {α : Type} (le : α → α → Bool) {l : List α}
    (h : l.Nodup) : (sortBy le l).Nodup :=
  (perm_sortBy le l).symm.nodup h

/-! ## The graph traversal simulator (`simulate_graph_traversal`, lines 296-423)

An adjacency list maps node identifiers to lists of neighbour entries; a
neighbour entry is either a bare identifier or a weight-tagged pair
(`isinstance(neighbor, tuple)` in the source).  The weight is inert: the
simulator only ever reads `neighbor[0]`. -/

inductive Nbr (α : Type) where
  | plain (n : α)
  | weighted (n : α) (w : α)
deriving DecidableEq

/-- `neighbor[0] if isinstance(neighbor, tuple) else neighbor`. -/
def Nbr.node {α : Type} : Nbr α → α
  | .plain n => n
  | .weighted n _ => n

/-- A Python dict from node to neighbour list, in insertion order. -/
abbrev AdjList (α : Type) := List (α × List (Nbr α))

/-- `edges.get(current, [])`: first entry whose key matches (a dict has
unique keys, so first match is the entry). -/
def getNbrs {α : Type} [DecidableEq α] : AdjList α → α → List (Nbr α)
  | [], _ => []
  | (k, vs) :: rest, c => if k = c then vs else getNbrs rest c

/-- All node occurrences: the keys, then every neighbour occurrence
(the source builds `all_nodes = set(nodes)` and then adds neighbours). -/
def rawNodes {α : Type} : AdjList α → List α
  | [] => []
  | (k, vs) :: rest => k :: (vs.map Nbr.node ++ rawNodes rest)

/-- `nodes = sorted(list(all_nodes))`: the sorted duplicate-free node list. -/
def simNodes {α : Type} [DecidableEq α] (le : α → α → Bool) (g : AdjList α) : List α :=
  sortBy le (rawNodes g).dedup

/-- `calculate_graph_positions`: the source lays nodes out on a circle with
`math.cos`/`math.sin`; the coordinates are a pure function of the node's
index in the ordered node list, which is what we record (floats are not
embeddable; no claim inspects the coordinates). -/
def calculate_graph_positions {α : Type} (nodes : List α) : List (α × Nat) :=
  nodes.enum.map (fun p => (p.2, p.1))

/-- The `"graph"` sub-dictionary of a frame. -/
structure GraphView (α : Type) where
  name : String
  nodes : List α
  edges : AdjList α
  positions : List (α × Nat)
  current_node : Option α
  visited : List α
  exploring : List α
deriving DecidableEq

/-- The `"data_structure"` sub-dictionary of a frame.  Optional fields model
keys that are present in some frames and absent in others; in particular
`operation = some none` models the final frame's `"operation": None`. -/
structure DSView (α : Type) where
  type : String
  name : String
  data : List α
  highlight : Option (List Nat)
  operation : Option (Option String)
  removed_value : Option α
deriving DecidableEq

/-- One traversal frame. -/
structure SimFrame (α : Type) where
  graph : GraphView α
  ds : DSView α
deriving DecidableEq

def algLabel (alg : String) : String := if alg = "bfs" then "BFS" else "DFS"

def dsTypeOf (alg : String) : String := if alg = "bfs" then "queue" else "stack"

def dsNameOf (alg : String) : String := if alg = "bfs" then "Queue" else "Stack"

def enqOp (alg : String) : String := if alg = "bfs" then "enqueue" else "push"

def deqOp (alg : String) : String := if alg = "bfs" then "dequeue" else "pop"

/-- The initial frame (source lines 326-343). -/
def initFrame {α : Type} (alg : String) (nodes : List α) (g : AdjList α)
    (pos : List (α × Nat)) (s : α) : SimFrame α :=
  { graph := { name := algLabel alg ++ " Traversal", nodes := nodes, edges := g,
               positions := pos, current_node := none, visited := [], exploring := [] },
    ds := { type := dsTypeOf alg, name := dsNameOf alg, data := [s],
            highlight := some [0], operation := some (some (enqOp alg)),
            removed_value := none } }

/-- The frame emitted on removing `current` (source lines 356-373);
`vis` is the insertion-ordered visited list after `visited.add(current)`,
shown through the set-iteration oracle `σ`. -/
def removalFrame {α : Type} (σ : List α → List α) (alg : String) (nodes : List α)
    (g : AdjList α) (pos : List (α × Nat)) (current : α) (st vis : List α) : SimFrame α :=
  { graph := { name := algLabel alg ++ " Traversal", nodes := nodes, edges := g,
               positions := pos, current_node := some current, visited := σ vis,
               exploring := [] },
    ds := { type := dsTypeOf alg, name := dsNameOf alg, data := st,
            highlight := none, operation := some (some (deqOp alg)),
            removed_value := some current } }

/-- The frame emitted on appending neighbour `n` (source lines 386-403);
`st` is the frontier after the append. -/
def insertFrame {α : Type} (σ : List α → List α) (alg : String) (nodes : List α)
    (g : AdjList α) (pos : List (α × Nat)) (current n : α) (st vis : List α) : SimFrame α :=
  { graph := { name := algLabel alg ++ " Traversal", nodes := nodes, edges := g,
               positions := pos, current_node := some current, visited := σ vis,
               exploring := [n] },
    ds := { type := dsTypeOf alg, name := dsNameOf alg, data := st,
            highlight := some [st.length - 1], operation := some (some (enqOp alg)),
            removed_value := none } }

/-- The final frame (source lines 405-421). -/
def finalFrame {α : Type} (σ : List α → List α) (alg : String) (nodes : List α)
    (g : AdjList α) (pos : List (α × Nat)) (vis : List α) : SimFrame α :=
  { graph := { name := algLabel alg ++ " Traversal Complete", nodes := nodes, edges := g,
               positions := pos, current_node := none, visited := σ vis,
               exploring := [] },
    ds := { type := dsTypeOf alg, name := dsNameOf alg, data := [],
            highlight := none, operation := some none, removed_value := none } }

/-- `structure.pop(0)`. -/
def popFront {α : Type} : List α → Option (α × List α)
  | [] => none
  | x :: xs => some (x, xs)

/-- `structure.pop()`. -/
def popBack {α : Type} (st : List α) : Option (α × List α) :=
  match st.getLast? with
  | some x => some (x, st.dropLast)
  | none => none

/-- The inner `for neighbor in neighbors` loop (source lines 377-403):
appends each neighbour that is neither visited nor queued and emits one
insert frame per append.  Returns the emitted frames and the new frontier. -/
def processNbrs {α : Type} [DecidableEq α] (σ : List α → List α) (alg : String)
    (nodes : List α) (g : AdjList α) (pos : List (α × Nat)) (current : α) :
    List (Nbr α) → List α → List α → List (SimFrame α) × List α
  | [], st, _ => ([], st)
  | nb :: rest, st, vis =>
    let n := nb.node
    if n ∈ vis ∨ n ∈ st then
      processNbrs σ alg nodes g pos current rest st vis
    else
      let st' := st ++ [n]
      let out := processNbrs σ alg nodes g pos current rest st' vis
      (insertFrame σ alg nodes g pos current n st' vis :: out.1, out.2)

/-- The `while structure:` loop (source lines 345-403) plus the final frame.
The loop always terminates (each iteration removes a frontier element or
marks a new node visited); the `fuel` argument makes that recursion
structural, and `simulate_graph_traversal` passes fuel that is proved
sufficient (`simLoop_spec` below shows the zero-fuel case is unreachable
from the states the simulator actually starts in). -/
def simLoop {α : Type} [DecidableEq α] (σ : List α → List α) (alg : String)
    (nodes : List α) (g : AdjList α) (pos : List (α × Nat)) :
    Nat → List α → List α → List (SimFrame α)
  | 0, _, _ => []
  | fuel + 1, st, vis =>
    match (if alg = "bfs" then popFront st else popBack st) with
    | none => [finalFrame σ alg nodes g pos vis]
    | some (current, rest) =>
      if current ∈ vis then
        simLoop σ alg nodes g pos fuel rest vis
      else
        let vis' := vis ++ [current]
        let out := processNbrs σ alg nodes g pos current (getNbrs g current) rest vis'
        removalFrame σ alg nodes g pos current rest vis'
          :: (out.1 ++ simLoop σ alg nodes g pos fuel out.2 vis')

/-- `simulate_graph_traversal(graph_data, start_node, algorithm)`
(source lines 296-423).  `falsy` is Python truthiness on node identifiers
(`if not start_node: return []` — note this also fires for a *falsy key*
such as `0` or `""`); `le` is the comparison used by `sorted`; `σ` is the
set-iteration oracle for `list(visited)`. -/
def simulate_graph_traversal {α : Type} [DecidableEq α] (σ : List α → List α)
    (le : α → α → Bool) (falsy : α → Bool)
    (graph_data : AdjList α) (start_node : α) (algorithm : String) : List (SimFrame α) :=
  let nodes := simNodes le graph_data
  let fixed : Option α := if start_node ∈ nodes then some start_node else nodes.head?
  match fixed with
  | none => []
  | some s =>
    if falsy s then []
    else
      let pos := calculate_graph_positions nodes
      initFrame algorithm nodes graph_data pos s
        :: simLoop σ algorithm nodes graph_data pos (nodes.length + 1) [s] []

/-! ### Observations on a frame sequence -/

/-- The sequence of dequeued nodes, in frame order (`removed_value` is set
exactly on removal frames). -/
def removedSeq {α : Type} : List (SimFrame α) → List α
  | [] => []
  | f :: fs =>
    match f.ds.removed_value with
    | some a => a :: removedSeq fs
    | none => removedSeq fs

/-- The concatenation of the `exploring` fields, i.e. the nodes appended to
the frontier by the loop, in order. -/
def enqSeq {α : Type} : List (SimFrame α) → List α
  | [] => []
  | f :: fs => f.graph.exploring ++ enqSeq fs

/-- The frontier insertions recorded by one frame: the initial frame (no
current node, an enqueue/push operation) contributes its frontier contents
(the start node); any other frame contributes its `exploring` field. -/
def insContrib {α : Type} (f : SimFrame α) : List α :=
  match f.graph.current_node, f.ds.operation with
  | none, some (some _) => f.ds.data
  | _, _ => f.graph.exploring

/-- Every node-insertion event into the frontier, in order. -/
def insertionSeq {α : Type} : List (SimFrame α) → List α
  | [] => []
  | f :: fs => insContrib f ++ insertionSeq fs

/-- The visited list carried by the last frame (empty if there is none). -/
def finalVisited {α : Type} (fs : List (SimFrame α)) : List α :=
  (fs.getLast?.map (fun f => f.graph.visited)).getD []

/-- A valid set-iteration order: returns the distinct elements of the
insertion sequence, each exactly once, in some order.  This is exactly what
CPython guarantees about iterating a `set` (for `str` elements the order
additionally depends on the per-process hash seed). -/
def SetIterOrd {α : Type} [DecidableEq α] (σ : List α → List α) : Prop :=
  ∀ l : List α, (σ l).Perm l.dedup

/-- Reachability in the adjacency list along `getNbrs` edges. -/
inductive Reaches {α : Type} [DecidableEq α] (g : AdjList α) (s : α) : α → Prop where
  | refl : Reaches g s s
  | step {u v : α} : Reaches g s u → v ∈ (getNbrs g u).map Nbr.node → Reaches g s v

/-! ### Elementary lemmas about the frame observations -/

theorem removedSeq_append {α : Type} (l₁ l₂ : List (SimFrame α)) :
    removedSeq (l₁ ++ l₂) = removedSeq l₁ ++ removedSeq l₂ := by
  induction l₁ with
  | nil => rfl
  | cons f fs ih =>
    simp only [List.cons_append, removedSeq]
    cases f.ds.removed_value <;> simp [ih]

theorem enqSeq_append {α : Type} (l₁ l₂ : List (SimFrame α)) :
    enqSeq (l₁ ++ l₂) = enqSeq l₁ ++ enqSeq l₂ := by
  induction l₁ with
  | nil => rfl
  | cons f fs ih => simp [enqSeq, ih]

theorem insertionSeq_append {α : Type} (l₁ l₂ : List (SimFrame α)) :
    insertionSeq (l₁ ++ l₂) = insertionSeq l₁ ++ insertionSeq l₂ := by
  induction l₁ with
  | nil => rfl
  | cons f fs ih => simp [insertionSeq, ih]

theorem getNbrs_subset_rawNodes {α : Type} [DecidableEq α] (g : AdjList α) (c : α) :
    ∀ nb ∈ getNbrs g c, nb.node ∈ rawNodes g := by
  induction g with
  | nil => simp [getNbrs]
  | cons e rest ih =>
    obtain ⟨k, vs⟩ := e
    intro nb hnb
    simp only [getNbrs] at hnb
    simp only [rawNodes, List.mem_cons, List.mem_append]
    split at hnb
    · exact Or.inr (Or.inl (List.mem_map_of_mem Nbr.node hnb))
    · exact Or.inr (Or.inr (ih nb hnb))

theorem mem_simNodes_of_rawNodes {α : Type} [DecidableEq α] (le : α → α → Bool)
    (g : AdjList α) {x : α} (h : x ∈ rawNodes g) : x ∈ simNodes le g := by
  unfold simNodes
  rw [mem_sortBy, List.mem_dedup]
  exact h

/-! ### Pop lemmas -/

theorem pop_eq_none {α : Type} (alg : String) (st : List α)
    (h : (if alg = "bfs" then popFront st else popBack st) = none) : st = [] := by
  split at h
  · cases st with
    | nil => rfl
    | cons x xs => simp [popFront] at h
  · unfold popBack at h
    cases hl : st.getLast? with
    | none => simpa using hl
    | some x => simp [hl] at h

theorem pop_eq_some {α : Type} (alg : String) (st : List α) (c : α) (r : List α)
    (h : (if alg = "bfs" then popFront st else popBack st) = some (c, r)) :
    st.Perm (c :: r) ∧ (alg = "bfs" → st = c :: r) := by
  split at h
  case isTrue halg =>
    cases st with
    | nil => simp [popFront] at h
    | cons x xs =>
      simp only [popFront, Option.some_inj, Prod.mk.injEq] at h
      obtain ⟨rfl, rfl⟩ := h
      exact ⟨List.Perm.refl _, fun _ => rfl⟩
  case isFalse halg =>
    unfold popBack at h
    cases hl : st.getLast? with
    | none => simp [hl] at h
    | some x =>
      simp only [hl, Option.some_inj, Prod.mk.injEq] at h
      obtain ⟨h1, h2⟩ := h
      have hne : st ≠ [] := by
        intro he
        subst he
        simp at hl
      have hsplit : st.dropLast ++ [st.getLast hne] = st := List.dropLast_append_getLast hne
      have hx : x = st.getLast hne := by
        rw [List.getLast?_eq_getLast st hne] at hl
        exact (Option.some_inj.mp hl).symm
      constructor
      · have hst : st = r ++ [c] := by
          rw [← h2, ← h1, hx]
          exact hsplit.symm
        rw [hst]
        exact List.perm_append_singleton _ _
      · intro hb
        exact absurd hb halg

/-! ### The neighbour-loop specification -/

structure PNSpec {α : Type} [DecidableEq α] (nbrs : List (Nbr α)) (st vis : List α)
    (out : List (SimFrame α) × List α) : Prop where
  stEq : out.2 = st ++ enqSeq out.1
  remNil : removedSeq out.1 = []
  insEq : insertionSeq out.1 = enqSeq out.1
  enqNotVis : ∀ x ∈ enqSeq out.1, x ∉ vis
  enqMem : ∀ x ∈ enqSeq out.1, x ∈ nbrs.map Nbr.node
  nodup : st.Nodup → (st ++ enqSeq out.1).Nodup
  len : out.1.length = (enqSeq out.1).length
  cover : ∀ nb ∈ nbrs, nb.node ∈ vis ∨ nb.node ∈ st ++ enqSeq out.1

theorem processNbrs_spec {α : Type} [DecidableEq α] (σ : List α → List α) (alg : String)
    (nodes : List α) (g : AdjList α) (pos : List (α × Nat)) (current : α) :
    ∀ (nbrs : List (Nbr α)) (st vis : List α),
      PNSpec nbrs st vis (processNbrs σ alg nodes g pos current nbrs st vis) := by
  intro nbrs
  induction nbrs with
  | nil =>
    intro st vis
    refine ⟨by simp [processNbrs, enqSeq], by simp [processNbrs, removedSeq], ?_, ?_, ?_, ?_, ?_, ?_⟩
      <;> simp [processNbrs, enqSeq, insertionSeq]
  | cons nb rest ih =>
    intro st vis
    by_cases hn : nb.node ∈ vis ∨ nb.node ∈ st
    · have hout : processNbrs σ alg nodes g pos current (nb :: rest) st vis
          = processNbrs σ alg nodes g pos current rest st vis := by
        simp only [processNbrs, if_pos hn]
      rw [hout]
      obtain ⟨stEq, remNil, insEq, enqNotVis, enqMem, nodup, len, cover⟩ := ih st vis
      refine ⟨stEq, remNil, insEq, enqNotVis, ?_, nodup, len, ?_⟩
      · intro x hx
        exact List.mem_cons_of_mem _ (enqMem x hx)
      · intro nb' hnb'
        rcases List.mem_cons.mp hnb' with rfl | h
        · rcases hn with h | h
          · exact Or.inl h
          · exact Or.inr (List.mem_append_left _ h)
        · exact cover nb' h
    · have hout : processNbrs σ alg nodes g pos current (nb :: rest) st vis
          = (insertFrame σ alg nodes g pos current nb.node (st ++ [nb.node]) vis
              :: (processNbrs σ alg nodes g pos current rest (st ++ [nb.node]) vis).1,
             (processNbrs σ alg nodes g pos current rest (st ++ [nb.node]) vis).2) := by
        simp only [processNbrs, if_neg hn]
      rw [hout]
      obtain ⟨stEq, remNil, insEq, enqNotVis, enqMem, nodup, len, cover⟩ :=
        ih (st ++ [nb.node]) vis
      have henq : ∀ l, enqSeq (insertFrame σ alg nodes g pos current nb.node
          (st ++ [nb.node]) vis :: l) = nb.node :: enqSeq l := by
        intro l
        simp [enqSeq, insertFrame]
      push_neg at hn
      refine ⟨?_, ?_, ?_, ?_, ?_, ?_, ?_, ?_⟩
      · rw [henq]
        simp only [stEq]
        simp
      · simp only [removedSeq, insertFrame]
        exact remNil
      · rw [henq]
        simp only [insertionSeq, insContrib, insertFrame]
        simpa using insEq
      · rw [henq]
        intro x hx
        rcases List.mem_cons.mp hx with rfl | h
        · exact hn.1
        · exact enqNotVis x h
      · rw [henq]
        intro x hx
        rcases List.mem_cons.mp hx with rfl | h
        · exact List.mem_cons_self _ _
        · exact List.mem_cons_of_mem _ (enqMem x h)
      · rw [henq]
        intro hst
        have hst' : (st ++ [nb.node]).Nodup := by
          rw [List.nodup_append]
          exact ⟨hst, List.nodup_singleton _, by simpa using fun h => hn.2 h⟩
        have := nodup hst'
        simpa [List.append_assoc] using this
      · rw [henq]
        simp only [List.length_cons]
        omega
      · rw [henq]
        intro nb' hnb'
        rcases List.mem_cons.mp hnb' with rfl | h
        · exact Or.inr (by simp)
        · rcases cover nb' h with h' | h'
          · exact Or.inl h'
          · exact Or.inr (by simpa [List.append_assoc] using h')

/-! ### The main-loop specification

`LoopSpec` records everything the claims need about a run of the
`while structure:` loop started from frontier `st` and visited-list `vis`:
the dequeued nodes are exactly the frontier plus the later insertions (as
a permutation in general and as an equality for the FIFO/BFS discipline),
the insertion events are duplicate-free and disjoint from `vis`, the frame
count is insertions + removals + 1, the last frame is the final frame over
the full visited list, visitedness is closed under neighbours on
termination, and every removed node satisfies any neighbour-closed
predicate holding on the initial frontier. -/

structure LoopSpec {α : Type} [DecidableEq α] (σ : List α → List α) (alg : String)
    (nodes : List α) (g : AdjList α) (pos : List (α × Nat))
    (st vis : List α) (fs : List (SimFrame α)) : Prop where
  perm : (removedSeq fs).Perm (st ++ enqSeq fs)
  bfsEq : alg = "bfs" → removedSeq fs = st ++ enqSeq fs
  insEq : insertionSeq fs = enqSeq fs
  nodup : (vis ++ (st ++ enqSeq fs)).Nodup
  enqMem : ∀ x ∈ enqSeq fs, x ∈ nodes
  len : fs.length = (removedSeq fs).length + ((enqSeq fs).length + 1)
  last : fs.getLast? = some (finalFrame σ alg nodes g pos (vis ++ removedSeq fs))
  closure : (∀ v ∈ vis, ∀ nb ∈ getNbrs g v, nb.node ∈ vis ∨ nb.node ∈ st) →
            ∀ v ∈ vis ++ removedSeq fs, ∀ nb ∈ getNbrs g v, nb.node ∈ vis ++ removedSeq fs
  sound : ∀ (R : α → Prop), (∀ u, R u → ∀ nb ∈ getNbrs g u, R nb.node) →
          (∀ x ∈ st, R x) → (∀ x ∈ vis, R x) → ∀ x ∈ removedSeq fs, R x

theorem simLoop_spec {α : Type} [DecidableEq α] (σ : List α → List α) (alg : String)
    (nodes : List α) (g : AdjList α) (pos : List (α × Nat))
    (hnodes : ∀ x ∈ rawNodes g, x ∈ nodes) :
    ∀ (fuel : Nat) (st vis : List α),
      nodes.length < fuel + vis.length →
      st.Nodup → (∀ x ∈ st, x ∈ nodes) →
      vis.Nodup → (∀ x ∈ vis, x ∈ nodes) →
      (∀ x ∈ st, x ∉ vis) →
      LoopSpec σ alg nodes g pos st vis (simLoop σ alg nodes g pos fuel st vis) := by
  intro fuel
  induction fuel with
  | zero =>
    intro st vis hfuel _ _ hvisN hvisS _
    exfalso
    have hlen : vis.length ≤ nodes.length :=
      (List.subperm_of_subset hvisN (fun x hx => hvisS x hx)).length_le
    omega
  | succ fuel ih =>
    intro st vis hfuel hstN hstS hvisN hvisS hdisj
    rcases hpop : (if alg = "bfs" then popFront st else popBack st) with _ | ⟨c, r⟩
    · -- `while structure:` fails: frontier is empty, emit the final frame
      have hst : st = [] := pop_eq_none alg st hpop
      subst hst
      have hred : simLoop σ alg nodes g pos (fuel + 1) [] vis
          = [finalFrame σ alg nodes g pos vis] := by
        simp only [simLoop]
        rw [hpop]
      rw [hred]
      have hrem : removedSeq [finalFrame σ alg nodes g pos vis] = ([] : List α) := by
        simp [removedSeq, finalFrame]
      have henq : enqSeq [finalFrame σ alg nodes g pos vis] = ([] : List α) := by
        simp [enqSeq, finalFrame]
      refine ⟨?_, ?_, ?_, ?_, ?_, ?_, ?_, ?_, ?_⟩
      · rw [hrem, henq]
        exact List.Perm.refl _
      · intro _
        rw [hrem, henq]
        rfl
      · rw [henq]
        simp [insertionSeq, insContrib, finalFrame]
      · rw [henq]
        simpa using hvisN
      · rw [henq]
        simp
      · rw [hrem, henq]
        simp
      · rw [hrem]
        simp
      · intro hcl v hv nb hnb
        rw [hrem] at hv ⊢
        rcases hcl v (by simpa using hv) nb hnb with h | h
        · simpa using h
        · simp at h
      · intro R _ _ _ x hx
        rw [hrem] at hx
        simp at hx
    · -- one iteration: pop `c`, leaving frontier `r`
      obtain ⟨hpermst, hbfsst⟩ := pop_eq_some alg st c r hpop
      have hcmem : c ∈ st := hpermst.mem_iff.mpr (List.mem_cons_self c r)
      have hcrN : (c :: r).Nodup := hpermst.nodup hstN
      have hcnr : c ∉ r := (List.nodup_cons.mp hcrN).1
      have hrN : r.Nodup := (List.nodup_cons.mp hcrN).2
      have hrS : ∀ x ∈ r, x ∈ nodes := fun x hx =>
        hstS x (hpermst.mem_iff.mpr (List.mem_cons_of_mem c hx))
      by_cases hcv : c ∈ vis
      · exact absurd hcv (hdisj c hcmem)
      have hred : simLoop σ alg nodes g pos (fuel + 1) st vis
          = removalFrame σ alg nodes g pos c r (vis ++ [c])
              :: ((processNbrs σ alg nodes g pos c (getNbrs g c) r (vis ++ [c])).1
                  ++ simLoop σ alg nodes g pos fuel
                      (processNbrs σ alg nodes g pos c (getNbrs g c) r (vis ++ [c])).2
                      (vis ++ [c])) := by
        simp only [simLoop]
        rw [hpop]
        simp only [if_neg hcv]
      set vis' := vis ++ [c] with hvis'
      set pn := processNbrs σ alg nodes g pos c (getNbrs g c) r vis' with hpndef
      set fs' := simLoop σ alg nodes g pos fuel pn.2 vis' with hfs'
      have pnspec := processNbrs_spec σ alg nodes g pos c (getNbrs g c) r vis'
      rw [← hpndef] at pnspec
      obtain ⟨stEq, remNil, pnInsEq, enqNotVis, pnEnqMem, pnNodup, pnLen, pnCover⟩ := pnspec
      have henqpnS : ∀ x ∈ enqSeq pn.1, x ∈ nodes := by
        intro x hx
        rcases List.mem_map.mp (pnEnqMem x hx) with ⟨nb, hnb, hx2⟩
        exact hx2 ▸ hnodes _ (getNbrs_subset_rawNodes g c nb hnb)
      have hvis'N : vis'.Nodup := by
        rw [hvis', List.nodup_append]
        exact ⟨hvisN, List.nodup_singleton c, by
          intro x hx hx2
          simp at hx2
          exact hcv (hx2 ▸ hx)⟩
      have hvis'S : ∀ x ∈ vis', x ∈ nodes := by
        intro x hx
        rcases List.mem_append.mp hx with h | h
        · exact hvisS x h
        · simp at h
          exact h ▸ hstS c hcmem
      have hst'N : pn.2.Nodup := by
        rw [stEq]
        exact pnNodup hrN
      have hst'S : ∀ x ∈ pn.2, x ∈ nodes := by
        rw [stEq]
        intro x hx
        rcases List.mem_append.mp hx with h | h
        · exact hrS x h
        · exact henqpnS x h
      have hdisj' : ∀ x ∈ pn.2, x ∉ vis' := by
        rw [stEq]
        intro x hx
        rcases List.mem_append.mp hx with h | h
        · intro hx2
          rcases List.mem_append.mp hx2 with h2 | h2
          · exact hdisj x (hpermst.mem_iff.mpr (List.mem_cons_of_mem c h)) h2
          · simp at h2
            exact hcnr (h2 ▸ h)
        · exact enqNotVis x h
      have hlen' : nodes.length < fuel + vis'.length := by
        rw [hvis', List.length_append, List.length_singleton]
        omega
      have spec' := ih pn.2 vis' hlen' hst'N hst'S hvis'N hvis'S hdisj'
      rw [← hfs'] at spec'
      rw [hred]
      have hrem : removedSeq (removalFrame σ alg nodes g pos c r vis' :: (pn.1 ++ fs'))
          = c :: removedSeq fs' := by
        simp only [removedSeq, removalFrame, removedSeq_append, remNil]
        simp
      have henq : enqSeq (removalFrame σ alg nodes g pos c r vis' :: (pn.1 ++ fs'))
          = enqSeq pn.1 ++ enqSeq fs' := by
        simp only [enqSeq, removalFrame, enqSeq_append]
        simp
      have hseteq : vis' ++ removedSeq fs' = vis ++ (c :: removedSeq fs') := by
        rw [hvis']
        simp
      refine ⟨?_, ?_, ?_, ?_, ?_, ?_, ?_, ?_, ?_⟩
      · -- perm
        rw [hrem, henq]
        have h1 : (removedSeq fs').Perm ((r ++ enqSeq pn.1) ++ enqSeq fs') := by
          have h0 := spec'.perm
          rw [stEq] at h0
          exact h0
        have h2 : (st ++ (enqSeq pn.1 ++ enqSeq fs')).Perm
            (c :: (r ++ (enqSeq pn.1 ++ enqSeq fs'))) := by
          simpa using hpermst.append_right (enqSeq pn.1 ++ enqSeq fs')
        refine List.Perm.trans ?_ h2.symm
        refine List.Perm.cons c ?_
        simpa [List.append_assoc] using h1
      · -- bfsEq
        intro halg
        rw [hrem, henq, hbfsst halg]
        have := spec'.bfsEq halg
        rw [stEq] at this
        simp [this, List.append_assoc]
      · -- insEq
        rw [henq]
        simp only [insertionSeq, insContrib, removalFrame, insertionSeq_append]
        simpa [pnInsEq] using spec'.insEq
      · -- nodup
        rw [henq]
        have hsp := spec'.nodup
        rw [stEq] at hsp
        have hperm2 : (vis ++ (st ++ (enqSeq pn.1 ++ enqSeq fs'))).Perm
            (vis' ++ ((r ++ enqSeq pn.1) ++ enqSeq fs')) := by
          rw [hvis']
          simp only [List.append_assoc, List.singleton_append]
          exact List.Perm.append_left vis
            (by simpa using hpermst.append_right (enqSeq pn.1 ++ enqSeq fs'))
        exact hperm2.symm.nodup hsp
      · -- enqMem
        rw [henq]
        intro x hx
        rcases List.mem_append.mp hx with h | h
        · exact henqpnS x h
        · exact spec'.enqMem x h
      · -- len
        rw [hrem, henq]
        have h1 := spec'.len
        simp only [List.length_cons, List.length_append]
        omega
      · -- last
        rw [hrem]
        rw [show removalFrame σ alg nodes g pos c r vis' :: (pn.1 ++ fs')
              = [removalFrame σ alg nodes g pos c r vis'] ++ (pn.1 ++ fs') from rfl]
        rw [List.getLast?_append, List.getLast?_append, spec'.last]
        simp only [Option.or]
        rw [hseteq]
      · -- closure
        intro hcl
        have hcl' : ∀ v ∈ vis', ∀ nb ∈ getNbrs g v, nb.node ∈ vis' ∨ nb.node ∈ pn.2 := by
          intro v hv nb hnb
          rcases List.mem_append.mp hv with hv1 | hv1
          · rcases hcl v hv1 nb hnb with h | h
            · exact Or.inl (List.mem_append_left _ h)
            · rcases List.mem_cons.mp (hpermst.mem_iff.mp h) with h' | h'
              · exact Or.inl (by rw [h', hvis']; simp)
              · exact Or.inr (by rw [stEq]; exact List.mem_append_left _ h')
          · have hv2 : v = c := by simpa using hv1
            subst hv2
            rcases pnCover nb hnb with h | h
            · exact Or.inl h
            · exact Or.inr (by rw [stEq]; exact h)
        have hrec := spec'.closure hcl'
        intro v hv nb hnb
        rw [hrem]
        rw [hrem, ← hseteq] at hv
        have := hrec v hv nb hnb
        rwa [hseteq] at this
      · -- sound
        intro R hR hRst hRvis
        have hRc : R c := hRst c hcmem
        have hRvis' : ∀ x ∈ vis', R x := by
          intro x hx
          rcases List.mem_append.mp hx with h | h
          · exact hRvis x h
          · simp at h
            exact h ▸ hRc
        have hRst' : ∀ x ∈ pn.2, R x := by
          rw [stEq]
          intro x hx
          rcases List.mem_append.mp hx with h | h
          · exact hRst x (hpermst.mem_iff.mpr (List.mem_cons_of_mem c h))
          · rcases List.mem_map.mp (pnEnqMem x h) with ⟨nb, hnb, hx2⟩
            exact hx2 ▸ hR c hRc nb hnb
        intro x hx
        rw [hrem] at hx
        rcases List.mem_cons.mp hx with h | h
        · exact h ▸ hRc
        · exact spec'.sound R hR hRst' hRvis' x h

/-! ### The full simulator run -/

theorem mem_rawNodes_of_key {α : Type} (g : AdjList α) {s : α}
    (hs : s ∈ g.map Prod.fst) : s ∈ rawNodes g := by
  induction g with
  | nil => simp at hs
  | cons e rest ih =>
    obtain ⟨k, vs⟩ := e
    simp only [List.map_cons, List.mem_cons] at hs
    simp only [rawNodes, List.mem_cons, List.mem_append]
    rcases hs with h | h
    · exact Or.inl h
    · exact Or.inr (Or.inr (ih h))

theorem simulate_run {α : Type} [DecidableEq α] (σ : List α → List α)
    (le : α → α → Bool) (falsy : α → Bool) (g : AdjList α) (s : α) (alg : String)
    (hs : s ∈ simNodes le g) (hf : falsy s = false) :
    simulate_graph_traversal σ le falsy g s alg
      = initFrame alg (simNodes le g) g (calculate_graph_positions (simNodes le g)) s
        :: simLoop σ alg (simNodes le g) g (calculate_graph_positions (simNodes le g))
            ((simNodes le g).length + 1) [s] [] := by
  simp [simulate_graph_traversal, hs, hf]

theorem simulate_cases {α : Type} [DecidableEq α] (σ : List α → List α)
    (le : α → α → Bool) (falsy : α → Bool) (g : AdjList α) (s : α) (alg : String) :
    simulate_graph_traversal σ le falsy g s alg = []
    ∨ ∃ s', s' ∈ simNodes le g ∧ falsy s' = false ∧
        simulate_graph_traversal σ le falsy g s alg
          = initFrame alg (simNodes le g) g (calculate_graph_positions (simNodes le g)) s'
            :: simLoop σ alg (simNodes le g) g (calculate_graph_positions (simNodes le g))
                ((simNodes le g).length + 1) [s'] [] := by
  by_cases hs : s ∈ simNodes le g
  · by_cases hf : falsy s
    · left
      simp [simulate_graph_traversal, hs, hf]
    · right
      exact ⟨s, hs, Bool.not_eq_true _ ▸ hf,
        simulate_run σ le falsy g s alg hs (Bool.not_eq_true _ ▸ hf)⟩
  · cases hh : (simNodes le g).head? with
    | none =>
      left
      simp [simulate_graph_traversal, hs, hh]
    | some s' =>
      have hs' : s' ∈ simNodes le g :=
        List.mem_of_mem_head? (show s' ∈ (simNodes le g).head? by rw [hh]; rfl)
      by_cases hf : falsy s'
      · left
        simp [simulate_graph_traversal, hs, hh, hf]
      · right
        refine ⟨s', hs', Bool.not_eq_true _ ▸ hf, ?_⟩
        simp [simulate_graph_traversal, hs, hh, hf]

theorem simulate_full_spec {α : Type} [DecidableEq α] (σ : List α → List α)
    (le : α → α → Bool) (g : AdjList α) (s' : α) (alg : String)
    (hs : s' ∈ simNodes le g) :
    LoopSpec σ alg (simNodes le g) g (calculate_graph_positions (simNodes le g)) [s'] []
      (simLoop σ alg (simNodes le g) g (calculate_graph_positions (simNodes le g))
        ((simNodes le g).length + 1) [s'] []) := by
  refine simLoop_spec σ alg _ g _ (fun x hx => mem_simNodes_of_rawNodes le g hx)
    ((simNodes le g).length + 1) [s'] [] (by simp) (List.nodup_singleton s')
    ?_ List.nodup_nil (by simp) (by simp)
  intro x hx
  simp only [List.mem_singleton] at hx
  exact hx ▸ hs

theorem removedSeq_initFrame_cons {α : Type} (alg : String) (nodes : List α)
    (g : AdjList α) (pos : List (α × Nat)) (s : α) (l : List (SimFrame α)) :
    removedSeq (initFrame alg nodes g pos s :: l) = removedSeq l := by
  simp [removedSeq, initFrame]

theorem enqSeq_initFrame_cons {α : Type} (alg : String) (nodes : List α)
    (g : AdjList α) (pos : List (α × Nat)) (s : α) (l : List (SimFrame α)) :
    enqSeq (initFrame alg nodes g pos s :: l) = enqSeq l := by
  simp [enqSeq, initFrame]

theorem insertionSeq_initFrame_cons {α : Type} (alg : String) (nodes : List α)
    (g : AdjList α) (pos : List (α × Nat)) (s : α) (l : List (SimFrame α)) :
    insertionSeq (initFrame alg nodes g pos s :: l) = s :: insertionSeq l := by
  simp [insertionSeq, insContrib, initFrame]

/-! ### FIFO order and removal-frame positions -/

theorem simulate_bfs_fifo {α : Type} [DecidableEq α] (σ : List α → List α)
    (le : α → α → Bool) (falsy : α → Bool) (g : AdjList α) (s : α) :
    insertionSeq (simulate_graph_traversal σ le falsy g s "bfs")
      = removedSeq (simulate_graph_traversal σ le falsy g s "bfs")
    ∧ (removedSeq (simulate_graph_traversal σ le falsy g s "bfs")).Nodup := by
  rcases simulate_cases σ le falsy g s "bfs" with h | ⟨s', hs', hf', h⟩
  · rw [h]
    exact ⟨rfl, List.nodup_nil⟩
  · rw [h]
    have spec := simulate_full_spec σ le g s' "bfs" hs'
    have hbfs := spec.bfsEq rfl
    have hnd := spec.nodup
    rw [List.nil_append] at hnd
    constructor
    · rw [insertionSeq_initFrame_cons, removedSeq_initFrame_cons, spec.insEq, hbfs]
      rfl
    · rw [removedSeq_initFrame_cons, hbfs]
      exact hnd

theorem removedSeq_findIdx_mono {α : Type} [DecidableEq α] :
    ∀ (fs : List (SimFrame α)) (u v : α), (removedSeq fs).Nodup →
      u ∈ removedSeq fs → v ∈ removedSeq fs →
      (removedSeq fs).indexOf u < (removedSeq fs).indexOf v →
      fs.findIdx (fun f => decide (f.ds.removed_value = some u))
        < fs.findIdx (fun f => decide (f.ds.removed_value = some v)) := by
  intro fs
  induction fs with
  | nil =>
    intro u v _ hu _ _
    simp [removedSeq] at hu
  | cons f fs ih =>
    intro u v hnd hu hv hlt
    simp only [List.findIdx_cons]
    cases hrv : f.ds.removed_value with
    | none =>
      have hr : removedSeq (f :: fs) = removedSeq fs := by
        simp only [removedSeq, hrv]
      rw [hr] at hnd hu hv hlt
      have : (decide ((none : Option α) = some u)) = false := by simp
      rw [this]
      have : (decide ((none : Option α) = some v)) = false := by simp
      rw [this]
      simp only [cond_false]
      exact Nat.succ_lt_succ (ih u v hnd hu hv hlt)
    | some x =>
      have hr : removedSeq (f :: fs) = x :: removedSeq fs := by
        simp only [removedSeq, hrv]
      rw [hr] at hnd hu hv hlt
      by_cases hvx : v = x
      · subst hvx
        rw [List.indexOf_cons_self] at hlt
        omega
      · by_cases hux : u = x
        · subst hux
          have h1 : (decide (some u = some u)) = true := by simp
          have h2 : (decide (some u = some v)) = false := by
            simp
            intro h
            exact hvx h.symm
          rw [h1, h2]
          simp
        · have h1 : (decide (some x = some u)) = false := by
            simp
            intro h
            exact hux h.symm
          have h2 : (decide (some x = some v)) = false := by
            simp
            intro h
            exact hvx h.symm
          rw [h1, h2]
          simp only [cond_false]
          have hu' : u ∈ removedSeq fs := by
            rcases List.mem_cons.mp hu with h | h
            · exact absurd h hux
            · exact h
          have hv' : v ∈ removedSeq fs := by
            rcases List.mem_cons.mp hv with h | h
            · exact absurd h hvx
            · exact h
          rw [List.indexOf_cons_ne _ (fun h => hux h.symm),
              List.indexOf_cons_ne _ (fun h => hvx h.symm)] at hlt
          exact Nat.succ_lt_succ (ih u v (List.nodup_cons.mp hnd).2 hu' hv'
            (Nat.lt_of_succ_lt_succ hlt))

/-! ### Claim C1: BFS visits exactly the reachable set -/

/-- C1 (amended): for every adjacency-list graph `g` and start node `s` that
is a key of `g` *and truthy as a Python value* (`falsy s = false` — the
source's `if not start_node: return []` also fires on a falsy key such as
`0` or `""`), the BFS simulation emits exactly one removal frame per node
reachable from `s` (duplicate-free, membership iff reachability, count one),
and the visited list carried by the final frame has exactly as many entries
as there are reachable nodes. -/
theorem C1_theorem {α : Type} [DecidableEq α] (σ : List α → List α)
    (le : α → α → Bool) (falsy : α → Bool) (g : AdjList α) (s : α)
    (hσ : SetIterOrd σ) (hs : s ∈ g.map Prod.fst) (hf : falsy s = false) :
    (removedSeq (simulate_graph_traversal σ le falsy g s "bfs")).Nodup
    ∧ (∀ t, t ∈ removedSeq (simulate_graph_traversal σ le falsy g s "bfs")
          ↔ Reaches g s t)
    ∧ (∀ t, Reaches g s t →
        (removedSeq (simulate_graph_traversal σ le falsy g s "bfs")).count t = 1)
    ∧ (finalVisited (simulate_graph_traversal σ le falsy g s "bfs")).length
        = Set.ncard {t | Reaches g s t} := by
  have hsmem : s ∈ simNodes le g :=
    mem_simNodes_of_rawNodes le g (mem_rawNodes_of_key g hs)
  rw [simulate_run σ le falsy g s "bfs" hsmem hf]
  have spec := simulate_full_spec σ le g s "bfs" hsmem
  rw [removedSeq_initFrame_cons]
  have hbfs := spec.bfsEq rfl
  have hnd : (removedSeq (simLoop σ "bfs" (simNodes le g) g
      (calculate_graph_positions (simNodes le g)) ((simNodes le g).length + 1)
      [s] [])).Nodup := by
    have h := spec.nodup
    rw [List.nil_append] at h
    rw [hbfs]
    exact h
  have hmemiff : ∀ t, t ∈ removedSeq (simLoop σ "bfs" (simNodes le g) g
      (calculate_graph_positions (simNodes le g)) ((simNodes le g).length + 1)
      [s] []) ↔ Reaches g s t := by
    intro t
    constructor
    · intro ht
      refine spec.sound (Reaches g s)
        (fun u hu nb hnb => Reaches.step hu (List.mem_map_of_mem Nbr.node hnb))
        ?_ (by simp) t ht
      intro x hx
      simp only [List.mem_singleton] at hx
      exact hx ▸ Reaches.refl
    · intro hr
      have hcl := spec.closure (by simp)
      rw [List.nil_append] at hcl
      induction hr with
      | refl =>
        rw [hbfs]
        exact List.mem_append_left _ (List.mem_singleton_self s)
      | step hu hmem ih =>
        rcases List.mem_map.mp hmem with ⟨nb, hnb, rfl⟩
        exact hcl _ ih nb hnb
  refine ⟨hnd, hmemiff, fun t ht => List.count_eq_one_of_mem hnd ((hmemiff t).mpr ht), ?_⟩
  have hset : {t | Reaches g s t}
      = (((removedSeq (simLoop σ "bfs" (simNodes le g) g
          (calculate_graph_positions (simNodes le g)) ((simNodes le g).length + 1)
          [s] [])).toFinset : Finset α) : Set α) := by
    ext t
    simp only [Set.mem_setOf_eq, Finset.coe_sort_coe, List.coe_toFinset,
      Set.mem_setOf_eq, List.mem_toFinset]
    exact (hmemiff t).symm
  have hlast : (initFrame "bfs" (simNodes le g) g
      (calculate_graph_positions (simNodes le g)) s
        :: simLoop σ "bfs" (simNodes le g) g
            (calculate_graph_positions (simNodes le g)) ((simNodes le g).length + 1)
            [s] []).getLast?
      = some (finalFrame σ "bfs" (simNodes le g) g
          (calculate_graph_positions (simNodes le g))
          ([] ++ removedSeq (simLoop σ "bfs" (simNodes le g) g
            (calculate_graph_positions (simNodes le g)) ((simNodes le g).length + 1)
            [s] []))) := by
    rw [show initFrame "bfs" (simNodes le g) g
          (calculate_graph_positions (simNodes le g)) s
          :: simLoop σ "bfs" (simNodes le g) g
              (calculate_graph_positions (simNodes le g)) ((simNodes le g).length + 1)
              [s] []
        = [initFrame "bfs" (simNodes le g) g
            (calculate_graph_positions (simNodes le g)) s]
          ++ simLoop σ "bfs" (simNodes le g) g
              (calculate_graph_positions (simNodes le g)) ((simNodes le g).length + 1)
              [s] [] from rfl]
    rw [List.getLast?_append, spec.last]
    simp [Option.or]
  unfold finalVisited
  rw [hlast]
  simp only [Option.map, Option.getD, List.nil_append]
  have hσl := hσ (removedSeq (simLoop σ "bfs" (simNodes le g) g
    (calculate_graph_positions (simNodes le g)) ((simNodes le g).length + 1) [s] []))
  rw [List.Nodup.dedup hnd] at hσl
  simp only [finalFrame]
  rw [hσl.length_eq, hset, Set.ncard_coe_Finset, List.toFinset_card_of_nodup hnd]

/-- Witness for C1 at the graph `{1: [2], 2: []}` with start node `1`. -/
theorem C1_witness :
    (SetIterOrd (fun l : List Nat => l.dedup)
      ∧ 1 ∈ ([(1, [Nbr.plain 2]), (2, [])] : AdjList Nat).map Prod.fst
      ∧ (fun n : Nat => n == 0) 1 = false)
    ∧ ((removedSeq (simulate_graph_traversal (fun l : List Nat => l.dedup) Nat.ble
          (fun n => n == 0) [(1, [Nbr.plain 2]), (2, [])] 1 "bfs")).Nodup
      ∧ (∀ t, t ∈ removedSeq (simulate_graph_traversal (fun l : List Nat => l.dedup)
            Nat.ble (fun n => n == 0) [(1, [Nbr.plain 2]), (2, [])] 1 "bfs")
          ↔ Reaches [(1, [Nbr.plain 2]), (2, [])] 1 t)
      ∧ (∀ t, Reaches [(1, [Nbr.plain 2]), (2, [])] 1 t →
          (removedSeq (simulate_graph_traversal (fun l : List Nat => l.dedup) Nat.ble
            (fun n => n == 0) [(1, [Nbr.plain 2]), (2, [])] 1 "bfs")).count t = 1)
      ∧ (finalVisited (simulate_graph_traversal (fun l : List Nat => l.dedup) Nat.ble
          (fun n => n == 0) [(1, [Nbr.plain 2]), (2, [])] 1 "bfs")).length
          = Set.ncard {t | Reaches [(1, [Nbr.plain 2]), (2, [])] 1 t}) :=
  ⟨⟨fun _ => List.Perm.refl _, by decide, by decide⟩,
   C1_theorem (fun l : List Nat => l.dedup) Nat.ble (fun n => n == 0)
     [(1, [Nbr.plain 2]), (2, [])] 1 (fun _ => List.Perm.refl _) (by decide) (by decide)⟩

/-- Counterexample to C1 as stated: in `{0: [1], 1: []}` the start node `0`
is a key of the graph and reachable from itself, yet the simulation returns
the empty frame list (Python falsiness: `if not start_node: return []` fires
for the integer key `0`), so no node gets a removal frame. -/
theorem C1_counterexample :
    0 ∈ ([(0, [Nbr.plain 1]), (1, [])] : AdjList Nat).map Prod.fst
    ∧ Reaches ([(0, [Nbr.plain 1]), (1, [])] : AdjList Nat) 0 0
    ∧ simulate_graph_traversal (fun l : List Nat => l.dedup) Nat.ble (fun n => n == 0)
        [(0, [Nbr.plain 1]), (1, [])] 0 "bfs" = []
    ∧ ¬ (∀ t, t ∈ removedSeq (simulate_graph_traversal (fun l : List Nat => l.dedup)
            Nat.ble (fun n => n == 0) [(0, [Nbr.plain 1]), (1, [])] 0 "bfs")
          ↔ Reaches [(0, [Nbr.plain 1]), (1, [])] 0 t) := by
  refine ⟨by decide, Reaches.refl, rfl, fun h => ?_⟩
  have h0 := (h 0).mpr Reaches.refl
  have he : removedSeq (simulate_graph_traversal (fun l : List Nat => l.dedup) Nat.ble
      (fun n => n == 0) [(0, [Nbr.plain 1]), (1, [])] 0 "bfs") = [] := rfl
  rw [he] at h0
  exact absurd h0 (List.not_mem_nil 0)

/-! ### Claim C4: FIFO frontier discipline for BFS -/

/-- C4: in every BFS run of `simulate_graph_traversal`, if `u` is inserted
into the frontier before `v` (position in the insertion-event sequence),
then the removal (dequeue) frame of `u` occurs no later than the removal
frame of `v` in the frame sequence. -/
theorem C4_theorem {α : Type} [DecidableEq α] (σ : List α → List α)
    (le : α → α → Bool) (falsy : α → Bool) (g : AdjList α) (s u v : α)
    (hu : u ∈ insertionSeq (simulate_graph_traversal σ le falsy g s "bfs"))
    (hv : v ∈ insertionSeq (simulate_graph_traversal σ le falsy g s "bfs"))
    (hlt : (insertionSeq (simulate_graph_traversal σ le falsy g s "bfs")).indexOf u
        < (insertionSeq (simulate_graph_traversal σ le falsy g s "bfs")).indexOf v) :
    (simulate_graph_traversal σ le falsy g s "bfs").findIdx
        (fun f => decide (f.ds.removed_value = some u))
      ≤ (simulate_graph_traversal σ le falsy g s "bfs").findIdx
        (fun f => decide (f.ds.removed_value = some v)) := by
  obtain ⟨heq, hnd⟩ := simulate_bfs_fifo σ le falsy g s
  rw [heq] at hu hv hlt
  exact le_of_lt (removedSeq_findIdx_mono _ u v hnd hu hv hlt)

/-- Witness for C4 at the graph `{1: [2, 3], 2: [], 3: []}` with start `1`:
node `2` is inserted before node `3` and is dequeued no later. -/
theorem C4_witness :
    (2 ∈ insertionSeq (simulate_graph_traversal (fun l : List Nat => l.dedup) Nat.ble
        (fun n => n == 0) [(1, [Nbr.plain 2, Nbr.plain 3]), (2, []), (3, [])] 1 "bfs")
      ∧ 3 ∈ insertionSeq (simulate_graph_traversal (fun l : List Nat => l.dedup) Nat.ble
        (fun n => n == 0) [(1, [Nbr.plain 2, Nbr.plain 3]), (2, []), (3, [])] 1 "bfs")
      ∧ (insertionSeq (simulate_graph_traversal (fun l : List Nat => l.dedup) Nat.ble
          (fun n => n == 0) [(1, [Nbr.plain 2, Nbr.plain 3]), (2, []), (3, [])] 1
          "bfs")).indexOf 2
        < (insertionSeq (simulate_graph_traversal (fun l : List Nat => l.dedup) Nat.ble
          (fun n => n == 0) [(1, [Nbr.plain 2, Nbr.plain 3]), (2, []), (3, [])] 1
          "bfs")).indexOf 3)
    ∧ (simulate_graph_traversal (fun l : List Nat => l.dedup) Nat.ble (fun n => n == 0)
        [(1, [Nbr.plain 2, Nbr.plain 3]), (2, []), (3, [])] 1 "bfs").findIdx
          (fun f => decide (f.ds.removed_value = some 2))
      ≤ (simulate_graph_traversal (fun l : List Nat => l.dedup) Nat.ble (fun n => n == 0)
        [(1, [Nbr.plain 2, Nbr.plain 3]), (2, []), (3, [])] 1 "bfs").findIdx
          (fun f => decide (f.ds.removed_value = some 3)) :=
  ⟨⟨by decide, by decide, by decide⟩,
   C4_theorem (fun l : List Nat => l.dedup) Nat.ble (fun n => n == 0)
     [(1, [Nbr.plain 2, Nbr.plain 3]), (2, []), (3, [])] 1 2 3
     (by decide) (by decide) (by decide)⟩

/-! ### Claim C9: single insertion, unreachable skip guard, frame bound -/

/-- C9: in every run of `simulate_graph_traversal` (any algorithm tag), each
node enters the frontier at most once (the insertion-event sequence is
duplicate-free), every inserted node is dequeued exactly once — the removal
sequence is a permutation of the insertion sequence, so the
skip-if-already-visited guard after a pop never fires (a skipped pop would
emit no removal frame and break the permutation) — and the total number of
emitted frames is at most `2 * (number of nodes) + 2`. -/
theorem C9_theorem {α : Type} [DecidableEq α] (σ : List α → List α)
    (le : α → α → Bool) (falsy : α → Bool) (g : AdjList α) (s : α) (alg : String) :
    (insertionSeq (simulate_graph_traversal σ le falsy g s alg)).Nodup
    ∧ (removedSeq (simulate_graph_traversal σ le falsy g s alg)).Perm
        (insertionSeq (simulate_graph_traversal σ le falsy g s alg))
    ∧ (simulate_graph_traversal σ le falsy g s alg).length
        ≤ 2 * (simNodes le g).length + 2 := by
  rcases simulate_cases σ le falsy g s alg with h | ⟨s', hs', hf', h⟩
  · rw [h]
    exact ⟨List.nodup_nil, List.Perm.refl _, by simp⟩
  · rw [h]
    have spec := simulate_full_spec σ le g s' alg hs'
    have hins : insertionSeq (initFrame alg (simNodes le g) g
        (calculate_graph_positions (simNodes le g)) s'
          :: simLoop σ alg (simNodes le g) g (calculate_graph_positions (simNodes le g))
              ((simNodes le g).length + 1) [s'] [])
        = s' :: enqSeq (simLoop σ alg (simNodes le g) g
            (calculate_graph_positions (simNodes le g)) ((simNodes le g).length + 1)
            [s'] []) := by
      rw [insertionSeq_initFrame_cons, spec.insEq]
    have hnd : (s' :: enqSeq (simLoop σ alg (simNodes le g) g
        (calculate_graph_positions (simNodes le g)) ((simNodes le g).length + 1)
        [s'] [])).Nodup := by
      have h2 := spec.nodup
      rw [List.nil_append, List.singleton_append] at h2
      exact h2
    have hperm : (removedSeq (simLoop σ alg (simNodes le g) g
        (calculate_graph_positions (simNodes le g)) ((simNodes le g).length + 1)
        [s'] [])).Perm (s' :: enqSeq (simLoop σ alg (simNodes le g) g
        (calculate_graph_positions (simNodes le g)) ((simNodes le g).length + 1)
        [s'] [])) := by
      have h2 := spec.perm
      rwa [List.singleton_append] at h2
    refine ⟨by rw [hins]; exact hnd, ?_, ?_⟩
    · rw [hins, removedSeq_initFrame_cons]
      exact hperm
    · have hsub : (s' :: enqSeq (simLoop σ alg (simNodes le g) g
          (calculate_graph_positions (simNodes le g)) ((simNodes le g).length + 1)
          [s'] [])) ⊆ simNodes le g := by
        intro x hx
        rcases List.mem_cons.mp hx with h2 | h2
        · exact h2 ▸ hs'
        · exact spec.enqMem x h2
      have hle : (s' :: enqSeq (simLoop σ alg (simNodes le g) g
          (calculate_graph_positions (simNodes le g)) ((simNodes le g).length + 1)
          [s'] [])).length ≤ (simNodes le g).length :=
        (List.subperm_of_subset hnd hsub).length_le
      have hlen := spec.len
      have hrl := hperm.length_eq
      simp only [List.length_cons] at hle hrl
      simp only [List.length_cons]
      omega

/-! ### Claim C3: determinism of the simulator

The only interpreter-state dependence in the simulator is `list(visited)`:
for string node identifiers, CPython's per-process hash seed can reorder the
iteration of the `visited` set between two runs.  Everything else is a pure
function of the inputs. -/

/-- Two frames that agree on every field except possibly the internal order
of the `visited` list. -/
def FrameEqvUpToVisited {α : Type} (f₁ f₂ : SimFrame α) : Prop :=
  f₁.ds = f₂.ds ∧ f₁.graph.visited.Perm f₂.graph.visited
  ∧ { f₁.graph with visited := [] } = { f₂.graph with visited := [] }

theorem processNbrs_congr {α : Type} [DecidableEq α] (σ₁ σ₂ : List α → List α)
    (h : ∀ l, (σ₁ l).Perm (σ₂ l)) (alg : String) (nodes : List α) (g : AdjList α)
    (pos : List (α × Nat)) (current : α) :
    ∀ (nbrs : List (Nbr α)) (st vis : List α),
      List.Forall₂ FrameEqvUpToVisited
        (processNbrs σ₁ alg nodes g pos current nbrs st vis).1
        (processNbrs σ₂ alg nodes g pos current nbrs st vis).1
      ∧ (processNbrs σ₁ alg nodes g pos current nbrs st vis).2
          = (processNbrs σ₂ alg nodes g pos current nbrs st vis).2 := by
  intro nbrs
  induction nbrs with
  | nil =>
    intro st vis
    exact ⟨List.Forall₂.nil, rfl⟩
  | cons nb rest ih =>
    intro st vis
    by_cases hn : nb.node ∈ vis ∨ nb.node ∈ st
    · simp only [processNbrs, if_pos hn]
      exact ih st vis
    · simp only [processNbrs, if_neg hn]
      obtain ⟨h1, h2⟩ := ih (st ++ [nb.node]) vis
      exact ⟨List.Forall₂.cons ⟨rfl, h vis, rfl⟩ h1, h2⟩

theorem simLoop_congr {α : Type} [DecidableEq α] (σ₁ σ₂ : List α → List α)
    (h : ∀ l, (σ₁ l).Perm (σ₂ l)) (alg : String) (nodes : List α) (g : AdjList α)
    (pos : List (α × Nat)) :
    ∀ (fuel : Nat) (st vis : List α),
      List.Forall₂ FrameEqvUpToVisited
        (simLoop σ₁ alg nodes g pos fuel st vis)
        (simLoop σ₂ alg nodes g pos fuel st vis) := by
  intro fuel
  induction fuel with
  | zero =>
    intro st vis
    exact List.Forall₂.nil
  | succ fuel ih =>
    intro st vis
    rcases hpop : (if alg = "bfs" then popFront st else popBack st) with _ | ⟨c, r⟩
    · simp only [simLoop]
      rw [hpop]
      exact List.Forall₂.cons ⟨rfl, h _, rfl⟩ List.Forall₂.nil
    · simp only [simLoop]
      rw [hpop]
      by_cases hcv : c ∈ vis
      · simp only [if_pos hcv]
        exact ih r vis
      · simp only [if_neg hcv]
        obtain ⟨hf₂, hs₂⟩ :=
          processNbrs_congr σ₁ σ₂ h alg nodes g pos c (getNbrs g c) r (vis ++ [c])
        refine List.Forall₂.cons ⟨rfl, h _, rfl⟩ (List.rel_append hf₂ ?_)
        rw [hs₂]
        exact ih _ _

/-- C3 (amended): two invocations of `simulate_graph_traversal` with
identical adjacency list, start node and algorithm tag, but possibly run in
different interpreter processes (modelled as two valid set-iteration
oracles), yield frame sequences of the same length that agree frame-by-frame
on every field — node lists, positions, frontier contents, operations,
removed values — except possibly the internal order of each frame's
`visited` list, which is a permutation.  With the same oracle (same process)
the runs are literally identical. -/
theorem C3_theorem {α : Type} [DecidableEq α] (σ₁ σ₂ : List α → List α)
    (le : α → α → Bool) (falsy : α → Bool) (g : AdjList α) (s : α) (alg : String)
    (hσ₁ : SetIterOrd σ₁) (hσ₂ : SetIterOrd σ₂) :
    List.Forall₂ FrameEqvUpToVisited
      (simulate_graph_traversal σ₁ le falsy g s alg)
      (simulate_graph_traversal σ₂ le falsy g s alg) := by
  have h : ∀ l, (σ₁ l).Perm (σ₂ l) := fun l => (hσ₁ l).trans (hσ₂ l).symm
  by_cases hs : s ∈ simNodes le g
  · by_cases hf : falsy s
    · rw [show simulate_graph_traversal σ₁ le falsy g s alg = [] by
          simp [simulate_graph_traversal, hs, hf],
        show simulate_graph_traversal σ₂ le falsy g s alg = [] by
          simp [simulate_graph_traversal, hs, hf]]
      exact List.Forall₂.nil
    · rw [simulate_run σ₁ le falsy g s alg hs (Bool.not_eq_true _ ▸ hf),
        simulate_run σ₂ le falsy g s alg hs (Bool.not_eq_true _ ▸ hf)]
      exact List.Forall₂.cons ⟨rfl, List.Perm.refl _, rfl⟩
        (simLoop_congr σ₁ σ₂ h alg (simNodes le g) g
          (calculate_graph_positions (simNodes le g)) ((simNodes le g).length + 1)
          [s] [])
  · cases hh : (simNodes le g).head? with
    | none =>
      rw [show simulate_graph_traversal σ₁ le falsy g s alg = [] by
          simp [simulate_graph_traversal, hs, hh],
        show simulate_graph_traversal σ₂ le falsy g s alg = [] by
          simp [simulate_graph_traversal, hs, hh]]
      exact List.Forall₂.nil
    | some s' =>
      by_cases hf : falsy s'
      · rw [show simulate_graph_traversal σ₁ le falsy g s alg = [] by
            simp [simulate_graph_traversal, hs, hh, hf],
          show simulate_graph_traversal σ₂ le falsy g s alg = [] by
            simp [simulate_graph_traversal, hs, hh, hf]]
        exact List.Forall₂.nil
      · rw [show simulate_graph_traversal σ₁ le falsy g s alg
              = initFrame alg (simNodes le g) g
                  (calculate_graph_positions (simNodes le g)) s'
                :: simLoop σ₁ alg (simNodes le g) g
                    (calculate_graph_positions (simNodes le g))
                    ((simNodes le g).length + 1) [s'] [] by
            simp [simulate_graph_traversal, hs, hh, hf],
          show simulate_graph_traversal σ₂ le falsy g s alg
              = initFrame alg (simNodes le g) g
                  (calculate_graph_positions (simNodes le g)) s'
                :: simLoop σ₂ alg (simNodes le g) g
                    (calculate_graph_positions (simNodes le g))
                    ((simNodes le g).length + 1) [s'] [] by
            simp [simulate_graph_traversal, hs, hh, hf]]
        exact List.Forall₂.cons ⟨rfl, List.Perm.refl _, rfl⟩
          (simLoop_congr σ₁ σ₂ h alg (simNodes le g) g
            (calculate_graph_positions (simNodes le g)) ((simNodes le g).length + 1)
            [s'] [])

/-- Witness for C3 at the graph `{1: [2], 2: []}`. -/
theorem C3_witness :
    (SetIterOrd (fun l : List Nat => l.dedup)
      ∧ SetIterOrd (fun l : List Nat => l.dedup))
    ∧ List.Forall₂ FrameEqvUpToVisited
        (simulate_graph_traversal (fun l : List Nat => l.dedup) Nat.ble
          (fun n => n == 0) [(1, [Nbr.plain 2]), (2, [])] 1 "bfs")
        (simulate_graph_traversal (fun l : List Nat => l.dedup) Nat.ble
          (fun n => n == 0) [(1, [Nbr.plain 2]), (2, [])] 1 "bfs") :=
  ⟨⟨fun _ => List.Perm.refl _, fun _ => List.Perm.refl _⟩,
   C3_theorem (fun l : List Nat => l.dedup) (fun l : List Nat => l.dedup) Nat.ble
     (fun n => n == 0) [(1, [Nbr.plain 2]), (2, [])] 1 "bfs"
     (fun _ => List.Perm.refl _) (fun _ => List.Perm.refl _)⟩

/-- Lexicographic comparison of character lists (CPython string `<=`). -/
def charsLe : List Char → List Char → Bool
  | [], _ => true
  | _ :: _, [] => false
  | c :: cs, d :: ds => if c = d then charsLe cs ds else decide (c < d)

/-- CPython `str` comparison for `sorted` over string node identifiers. -/
def pyStrLe (a b : String) : Bool := charsLe a.data b.data

/-- Python truthiness of a string: only `""` is falsy. -/
def pyStrFalsy (s : String) : Bool := s.data.isEmpty

/-- Counterexample to C3 as stated: with string node identifiers the
iteration order of the `visited` set depends on the per-process hash seed.
Both oracles below are valid set-iteration orders (each yields the distinct
visited nodes exactly once), yet the two runs on `{"A": ["B"], "B": []}`
from `"A"` produce different frame sequences — the `visited` lists appear
as `["A", "B"]` in one run and `["B", "A"]` in the other. -/
theorem C3_counterexample :
    SetIterOrd (fun l : List String => l.dedup)
    ∧ SetIterOrd (fun l : List String => l.dedup.reverse)
    ∧ simulate_graph_traversal (fun l : List String => l.dedup) pyStrLe pyStrFalsy
        [("A", [Nbr.plain "B"]), ("B", [])] "A" "bfs"
      ≠ simulate_graph_traversal (fun l : List String => l.dedup.reverse) pyStrLe
        pyStrFalsy [("A", [Nbr.plain "B"]), ("B", [])] "A" "bfs" :=
  ⟨fun _ => List.Perm.refl _, fun l => l.dedup.reverse_perm, by decide⟩

/-! ## Python values (`PVal`)

The statically evaluated values handled by `safe_eval_value`: constants,
containers, and an `other` case for everything the source degrades to an
`ast.unparse` string (including float displays). -/

inductive PVal where
  | int (n : Int)
  | str (s : String)
  | bool (b : Bool)
  | pynone
  | list (xs : List PVal)
  | tuple (xs : List PVal)
  | dict (kvs : List (PVal × PVal))
  | setv (xs : List PVal)
  | other (rep : String)

mutual

def pvSize : PVal → Nat
  | .list xs => 1 + pvSizeL xs
  | .tuple xs => 1 + pvSizeL xs
  | .setv xs => 1 + pvSizeL xs
  | .dict kvs => 1 + pvSizeKV kvs
  | _ => 1

def pvSizeL : List PVal → Nat
  | [] => 0
  | x :: xs => pvSize x + pvSizeL xs

def pvSizeKV : List (PVal × PVal) → Nat
  | [] => 0
  | kv :: kvs => pvSize kv.1 + pvSize kv.2 + pvSizeKV kvs

end

def pvListBeq (f : PVal → PVal → Bool) : List PVal → List PVal → Bool
  | [], [] => true
  | x :: xs, y :: ys => f x y && pvListBeq f xs ys
  | _, _ => false

def pvKVBeq (f : PVal → PVal → Bool) : List (PVal × PVal) → List (PVal × PVal) → Bool
  | [], [] => true
  | kv :: xs, kv' :: ys => f kv.1 kv'.1 && f kv.2 kv'.2 && pvKVBeq f xs ys
  | _, _ => false

/-- Fuelled structural equality on `PVal`; `pvSize a` fuel always suffices. -/
def pvBeqF : Nat → PVal → PVal → Bool
  | 0, _, _ => false
  | fuel + 1, a, b =>
    match a, b with
    | .int n, .int m => n == m
    | .str s, .str t => s == t
    | .bool x, .bool y => x == y
    | .pynone, .pynone => true
    | .list xs, .list ys => pvListBeq (pvBeqF fuel) xs ys
    | .tuple xs, .tuple ys => pvListBeq (pvBeqF fuel) xs ys
    | .setv xs, .setv ys => pvListBeq (pvBeqF fuel) xs ys
    | .dict xs, .dict ys => pvKVBeq (pvBeqF fuel) xs ys
    | .other s, .other t => s == t
    | _, _ => false

theorem pvSize_pos : ∀ a, 1 ≤ pvSize a := by
  intro a
  cases a <;> simp [pvSize]

theorem pvSize_le_pvSizeL : ∀ (xs : List PVal), ∀ x ∈ xs, pvSize x ≤ pvSizeL xs := by
  intro xs
  induction xs with
  | nil => simp
  | cons y ys ih =>
    intro x hx
    rcases List.mem_cons.mp hx with h | h
    · subst h
      simp [pvSizeL]
    · have := ih x h
      simp only [pvSizeL]
      omega

theorem pvSize_le_pvSizeKV : ∀ (kvs : List (PVal × PVal)), ∀ kv ∈ kvs,
    pvSize kv.1 ≤ pvSizeKV kvs ∧ pvSize kv.2 ≤ pvSizeKV kvs := by
  intro kvs
  induction kvs with
  | nil => simp
  | cons y ys ih =>
    intro kv hkv
    rcases List.mem_cons.mp hkv with h | h
    · subst h
      simp only [pvSizeKV]
      omega
    · have := ih kv h
      simp only [pvSizeKV]
      omega

theorem pvListBeq_iff (f : PVal → PVal → Bool)
    (xs : List PVal) (h : ∀ x ∈ xs, ∀ y, f x y = true ↔ x = y) :
    ∀ ys, pvListBeq f xs ys = true ↔ xs = ys := by
  induction xs with
  | nil =>
    intro ys
    cases ys <;> simp [pvListBeq]
  | cons x xs ih =>
    intro ys
    cases ys with
    | nil => simp [pvListBeq]
    | cons y ys =>
      simp only [pvListBeq, Bool.and_eq_true]
      rw [h x (by simp) y, ih (fun a ha => h a (by simp [ha])) ys]
      simp

theorem pvKVBeq_iff (f : PVal → PVal → Bool)
    (xs : List (PVal × PVal))
    (h : ∀ kv ∈ xs, (∀ y, f kv.1 y = true ↔ kv.1 = y) ∧ (∀ y, f kv.2 y = true ↔ kv.2 = y)) :
    ∀ ys, pvKVBeq f xs ys = true ↔ xs = ys := by
  induction xs with
  | nil =>
    intro ys
    cases ys <;> simp [pvKVBeq]
  | cons x xs ih =>
    intro ys
    cases ys with
    | nil => simp [pvKVBeq]
    | cons y ys =>
      simp only [pvKVBeq, Bool.and_eq_true]
      rw [(h x (by simp)).1 y.1, (h x (by simp)).2 y.2,
        ih (fun a ha => h a (by simp [ha])) ys]
      constructor
      · rintro ⟨⟨h1, h2⟩, h3⟩
        rw [Prod.ext_iff.mpr ⟨h1, h2⟩, h3]
      · intro he
        injection he with h1 h2
        exact ⟨⟨congrArg Prod.fst h1, congrArg Prod.snd h1⟩, h2⟩

theorem pvBeqF_iff : ∀ fuel a b, pvSize a ≤ fuel → (pvBeqF fuel a b = true ↔ a = b) := by
  intro fuel
  induction fuel with
  | zero =>
    intro a b h
    exfalso
    have := pvSize_pos a
    omega
  | succ fuel ih =>
    intro a b h
    have hlist : ∀ (xs : List PVal), pvSizeL xs ≤ fuel →
        ∀ x ∈ xs, ∀ y, pvBeqF fuel x y = true ↔ x = y := by
      intro xs hxs x hx y
      apply ih
      have := pvSize_le_pvSizeL xs x hx
      omega
    cases a <;> cases b <;> simp [pvBeqF, pvSize] at h ⊢
    case list.list xs ys =>
      rw [pvListBeq_iff (pvBeqF fuel) xs (hlist xs (by omega)) ys]
    case tuple.tuple xs ys =>
      rw [pvListBeq_iff (pvBeqF fuel) xs (hlist xs (by omega)) ys]
    case setv.setv xs ys =>
      rw [pvListBeq_iff (pvBeqF fuel) xs (hlist xs (by omega)) ys]
    case dict.dict xs ys =>
      rw [pvKVBeq_iff (pvBeqF fuel) xs ?_ ys]
      intro kv hkv
      have hb := pvSize_le_pvSizeKV xs kv hkv
      exact ⟨fun y => ih kv.1 y (by omega), fun y => ih kv.2 y (by omega)⟩

instance : DecidableEq PVal := fun a b =>
  decidable_of_iff (pvBeqF (pvSize a) a b = true) (pvBeqF_iff (pvSize a) a b (le_refl _))

/-! ## The Python AST fragment the analyzer inspects

`ast.parse` is CPython's, not this repository's; its outcome is an input
(`ParseOutcome` below) and the parsed tree is modelled by `Stmt`/`PExpr`:
exactly the node shapes `generate_execution_steps`, `process_statement`,
`safe_eval_value` and `detect_type` distinguish. -/

inductive BOp where
  | add
  | sub
  | mult
  | div
  | otherOp
deriving DecidableEq

inductive UOp where
  | neg
  | pos
  | otherU
deriving DecidableEq

inductive PExpr where
  | constInt (n : Int)
  | constStr (s : String)
  | constBool (b : Bool)
  | constNone
  | constFloat (rep : String)
  | listE (elts : List PExpr)
  | dictE (kvs : List (PExpr × PExpr))
  | setE (elts : List PExpr)
  | tupleE (elts : List PExpr)
  | binop (op : BOp) (l r : PExpr)
  | unop (op : UOp) (e : PExpr)
  | name (id : String)
  | call (fn : Option String) (args : List PExpr)
  | otherE (rep : String)

/-- Statements: assignments (targets are `some name` for `ast.Name` targets,
`none` for targets the analyzer skips), `obj.method(args)` expression
statements, other expression statements, function definitions, and
`for`/`while`/`if` with their condition/iterator expressions and the child
statements yielded by `ast.iter_child_nodes`. -/
inductive Stmt where
  | assign (targets : List (Option String)) (value : PExpr) (lineno : Nat)
  | exprCall (obj : String) (method : String) (args : List PExpr) (lineno : Nat)
  | exprE (e : PExpr) (lineno : Nat)
  | funcDef (fname : String) (body : List Stmt) (lineno : Nat)
  | loopOrIf (condExprs : List PExpr) (children : List Stmt) (lineno : Nat)

mutual

def exSize : PExpr → Nat
  | .listE es => 1 + exSizeL es
  | .setE es => 1 + exSizeL es
  | .tupleE es => 1 + exSizeL es
  | .dictE kvs => 1 + exSizeKV kvs
  | .binop _ l r => 1 + exSize l + exSize r
  | .unop _ e => 1 + exSize e
  | .call _ args => 1 + exSizeL args
  | _ => 1

def exSizeL : List PExpr → Nat
  | [] => 0
  | e :: es => exSize e + exSizeL es

def exSizeKV : List (PExpr × PExpr) → Nat
  | [] => 0
  | kv :: kvs => exSize kv.1 + exSize kv.2 + exSizeKV kvs

end

mutual

def stSize : Stmt → Nat
  | .funcDef _ body _ => 1 + stSizeL body
  | .loopOrIf _ children _ => 1 + stSizeL children
  | _ => 1

def stSizeL : List Stmt → Nat
  | [] => 0
  | s :: ss => stSize s + stSizeL ss

end

/-! ## `detect_type` (source lines 67-93) -/

/-- `detect_type`: note that because `bool` is a subclass of `int` in
Python, `isinstance(node.value, int)` is checked first and catches `True`
and `False`, so a boolean constant is reported as "int" and the "bool"
branch is dead code. -/
def detect_type : PExpr → String
  | .listE _ => "list"
  | .dictE _ => "dict"
  | .setE _ => "set"
  | .tupleE _ => "tuple"
  | .constInt _ => "int"
  | .constBool _ => "int"
  | .constFloat _ => "float"
  | .constStr _ => "string"
  | .constNone => "none"
  | .call (some fn) _ =>
    if fn ∈ ["list", "dict", "set", "tuple", "deque"] then fn else "unknown"
  | _ => "unknown"

/-! ## `safe_eval_value` (source lines 16-64) -/

/-- A minimal deterministic stand-in for `ast.unparse` (the fallback the
source returns for nodes it cannot evaluate).  The exact text is never
interpreted downstream — it only feeds display strings — so a compact
printer keeps the embedding executable. -/
def reprExpr : Nat → PExpr → String
  | 0, _ => "..."
  | fuel + 1, e =>
    match e with
    | .constInt n => toString n
    | .constStr s => s
    | .constBool b => if b then "True" else "False"
    | .constNone => "None"
    | .constFloat rep => rep
    | .listE es => "[" ++ String.intercalate ", " (es.map (reprExpr fuel)) ++ "]"
    | .dictE _ => "\x7b...\x7d"
    | .setE _ => "\x7b...\x7d"
    | .tupleE es => "(" ++ String.intercalate ", " (es.map (reprExpr fuel)) ++ ")"
    | .binop _ l r => reprExpr fuel l ++ " ? " ++ reprExpr fuel r
    | .unop _ e1 => "- " ++ reprExpr fuel e1
    | .name id => id
    | .call fn args =>
      (fn.getD "call") ++ "(" ++ String.intercalate ", " (args.map (reprExpr fuel)) ++ ")"
    | .otherE rep => rep

/-- Python numbers as the arithmetic branches see them (`bool` coerces). -/
def pvAsNum : PVal → Option Int
  | .int n => some n
  | .bool b => some (if b then 1 else 0)
  | _ => none

/-- Python `left + right` on the value shapes `safe_eval_value` produces:
numbers add, strings/lists/tuples concatenate, anything else raises
(`none` = `TypeError`, caught by the source's `except` → unparse). -/
def pyAdd : PVal → PVal → Option PVal
  | .str a, .str b => some (.str (a ++ b))
  | .list a, .list b => some (.list (a ++ b))
  | .tuple a, .tuple b => some (.tuple (a ++ b))
  | a, b =>
    match pvAsNum a, pvAsNum b with
    | some x, some y => some (.int (x + y))
    | _, _ => none

def pySub (a b : PVal) : Option PVal :=
  match pvAsNum a, pvAsNum b with
  | some x, some y => some (.int (x - y))
  | _, _ => none

def pyMult (a b : PVal) : Option PVal :=
  match pvAsNum a, pvAsNum b with
  | some x, some y => some (.int (x * y))
  | _, _ => none

/-- `left / right if right != 0 else float('inf')`: true division yields a
float; floats are display-only here, so the result is recorded as its
exact numerator/denominator text (and `inf` for a zero divisor). -/
def pyDiv (a b : PVal) : Option PVal :=
  match pvAsNum a, pvAsNum b with
  | some x, some y =>
    if y = 0 then some (.other "inf")
    else some (.other ("float:" ++ toString x ++ "/" ++ toString y))
  | _, _ => none

/-- `result[k] = v` on a Python dict: overwrite in place, else append. -/
def pvDictSet (kvs : List (PVal × PVal)) (k v : PVal) : List (PVal × PVal) :=
  if kvs.any (fun kv => kv.1 == k) then
    kvs.map (fun kv => if kv.1 == k then (kv.1, v) else kv)
  else kvs ++ [(k, v)]

/-- `safe_eval_value`.  The `BinOp`/`UnaryOp` branches with an unhandled
operator fall off the `if` chain and return `None`; an arithmetic
`TypeError` is caught by the function's own `except` and degrades to the
unparse text of the current node. -/
def peval : Nat → PExpr → PVal
  | 0, _ => .other "..."
  | fuel + 1, e =>
    match e with
    | .constInt n => .int n
    | .constStr s => .str s
    | .constBool b => .bool b
    | .constNone => .pynone
    | .constFloat rep => .other rep
    | .listE es => .list (es.map (peval fuel))
    | .dictE kvs =>
      .dict (kvs.foldl (fun acc kv =>
        let k := peval fuel kv.1
        if k = .pynone then acc else pvDictSet acc k (peval fuel kv.2)) [])
    | .setE es => .setv (es.map (peval fuel))
    | .tupleE es => .tuple (es.map (peval fuel))
    | .binop op l r =>
      let lv := peval fuel l
      let rv := peval fuel r
      match op with
      | .add => (pyAdd lv rv).getD (.other (reprExpr (fuel + 1) e))
      | .sub => (pySub lv rv).getD (.other (reprExpr (fuel + 1) e))
      | .mult => (pyMult lv rv).getD (.other (reprExpr (fuel + 1) e))
      | .div => (pyDiv lv rv).getD (.other (reprExpr (fuel + 1) e))
      | .otherOp => .pynone
    | .unop op e1 =>
      let v := peval fuel e1
      match op with
      | .neg =>
        match pvAsNum v with
        | some n => .int (-n)
        | none => .other (reprExpr (fuel + 1) e)
      | .pos =>
        match pvAsNum v with
        | some n => .int n
        | none => .other (reprExpr (fuel + 1) e)
      | .otherU => .pynone
    | .name id => .str ("<var:" ++ id ++ ">")
    | .call _ _ => .other (reprExpr (fuel + 1) e)
    | .otherE rep => .other rep

/-! ## Phase 1: variable-state collection (source lines 457-479) -/

/-- One entry of `variable_states`. -/
structure VarState where
  type : String
  value : PVal
  data : Option PVal
  is_stack : Bool
  is_queue : Bool
  is_visited : Bool

abbrev VarStates := List (String × VarState)

def lookupVar : VarStates → String → Option VarState
  | [], _ => none
  | (k, v) :: rest, nm => if k = nm then some v else lookupVar rest nm

/-- Python dict assignment: overwrite in place (keeping the key's original
insertion position), else append. -/
def setVar (m : VarStates) (k : String) (v : VarState) : VarStates :=
  if m.any (fun p => p.1 == k) then
    m.map (fun p => if p.1 == k then (p.1, v) else p)
  else m ++ [(k, v)]

/-- The `variable_states[var_name] = {...}` record built in phase 1. -/
def mkVarState (var_name : String) (e : PExpr) : VarState :=
  let var_type := detect_type e
  let actual := peval (exSize e + 1) e
  let low := strLower var_name
  { type := var_type,
    value := actual,
    data := match actual with
      | .list _ => some actual
      | .dict _ => some actual
      | .setv _ => some actual
      | _ => none,
    is_stack := strIn "stack" low || ["s", "st", "stk"].contains low,
    is_queue := strIn "queue" low || ["q", "qu"].contains low,
    is_visited := strIn "visited" low || strIn "seen" low }

/-- The statement children `ast.walk` descends into (expression children
carry no `ast.Assign` nodes of their own in this fragment). -/
def stmtChildren : Stmt → List Stmt
  | .funcDef _ body _ => body
  | .loopOrIf _ children _ => children
  | _ => []

/-- `ast.walk`: level-order traversal of the statement forest. -/
def walkStmts : Nat → List Stmt → List Stmt
  | 0, _ => []
  | _, [] => []
  | fuel + 1, q => q ++ walkStmts fuel (q.flatMap stmtChildren)

/-- Phase 1: every `ast.Assign` found by `ast.walk`, each `ast.Name` target
recorded with its statically evaluated value and role flags. -/
def collectAssigns (body : List Stmt) : VarStates :=
  (walkStmts (stSizeL body + 1) body).foldl
    (fun states stmt =>
      match stmt with
      | .assign targets value _ =>
        targets.foldl (fun st tgt =>
          match tgt with
          | some nm => setVar st nm (mkVarState nm value)
          | none => st) states
      | _ => states) []

/-! ## Graph extraction (source lines 155-192 and 210-230) -/

/-- `is_adjacency_list`: a non-empty dict whose values are all lists. -/
def is_adjacency_list : PVal → Bool
  | .dict kvs =>
    !kvs.isEmpty && kvs.all (fun kv => match kv.2 with | .list _ => true | _ => false)
  | _ => false

/-- `is_edge_list`: a non-empty list of tuples/lists of length ≥ 2. -/
def is_edge_list : PVal → Bool
  | .list xs =>
    !xs.isEmpty && xs.all (fun it =>
      match it with
      | .tuple ys => decide (2 ≤ ys.length)
      | .list ys => decide (2 ≤ ys.length)
      | _ => false)
  | _ => false

/-- How the simulator reads one neighbour entry
(`neighbor[0] if isinstance(neighbor, tuple) else neighbor`): a tuple of
length ≥ 2 is a weight-tagged pair; a 1-tuple only ever has its head read
(weight recorded as `None`); on an empty tuple the source raises
`IndexError` (caught by the outermost handler) — modelled totally as a
plain node. -/
def pvToNbr : PVal → Nbr PVal
  | .tuple (x :: w :: _) => .weighted x w
  | .tuple [x] => .weighted x .pynone
  | v => .plain v

/-- An adjacency-shaped dict value as the simulator's edge map. -/
def pvAdj (kvs : List (PVal × PVal)) : AdjList PVal :=
  kvs.map (fun kv =>
    (kv.1, (match kv.2 with | .list xs => xs | _ => []).map pvToNbr))

def adjAddKey (adj : AdjList PVal) (k : PVal) : AdjList PVal :=
  if adj.any (fun p => p.1 == k) then adj else adj ++ [(k, [])]

def adjAppend (adj : AdjList PVal) (u : PVal) (nb : Nbr PVal) : AdjList PVal :=
  adj.map (fun p => if p.1 == u then (p.1, p.2 ++ [nb]) else p)

/-- `edge_list_to_adjacency_list` (source lines 172-192): both endpoints
become keys; the edge `u → v` is appended, and a third component replaces
the just-appended entry with the weight-tagged pair — net effect: one
weighted entry. -/
def edge_list_to_adjacency_list (edges : List PVal) : AdjList PVal :=
  edges.foldl (fun adj edge =>
    match edge with
    | .tuple (u :: v :: rest) =>
      let adj1 := adjAddKey (adjAddKey adj u) v
      (match rest with
       | [] => adjAppend adj1 u (.plain v)
       | w :: _ => adjAppend adj1 u (.weighted v w))
    | .list (u :: v :: rest) =>
      let adj1 := adjAddKey (adjAddKey adj u) v
      (match rest with
       | [] => adjAppend adj1 u (.plain v)
       | w :: _ => adjAppend adj1 u (.weighted v w))
    | _ => adj) []

/-- `GraphDetector.find_graph` (source lines 210-230): first a dict-typed
variable whose data is adjacency-shaped, else a list-typed variable whose
data is an edge list (converted). -/
def find_graph (states : VarStates) : Option String × Option (AdjList PVal) :=
  match states.find? (fun p =>
      p.2.type == "dict" && is_adjacency_list (p.2.data.getD .pynone)) with
  | some p =>
    (some p.1, some (pvAdj (match p.2.data with | some (.dict kvs) => kvs | _ => [])))
  | none =>
    match states.find? (fun p =>
        p.2.type == "list" && is_edge_list (p.2.data.getD .pynone)) with
    | some p =>
      (some p.1, some (edge_list_to_adjacency_list
        (match p.2.data with | some (.list xs) => xs | _ => [])))
    | none => (none, none)

/-! ## `GraphDetector.detect_algorithm` (source lines 232-289) -/

/-- The closed set of algorithm tags plus the generic fallback. -/
def allowedTags : List String :=
  ["dijkstra", "topological_sort", "union_find", "prim", "bfs", "dfs",
   "dfs_recursive", "generic"]

/-- Does some user-defined function call itself (or another user-defined
function — the source checks `node.func.id in func_names`, not equality
with the enclosing function)?  This models the detector's inner
`ast.parse`/`ast.walk` scan; `false` also covers the bare-`except` path. -/
def exprCallNames : Nat → PExpr → List String
  | 0, _ => []
  | fuel + 1, e =>
    match e with
    | .call fn args => (match fn with | some f => [f] | none => [])
        ++ args.flatMap (exprCallNames fuel)
    | .listE es => es.flatMap (exprCallNames fuel)
    | .setE es => es.flatMap (exprCallNames fuel)
    | .tupleE es => es.flatMap (exprCallNames fuel)
    | .dictE kvs => kvs.flatMap (fun kv =>
        exprCallNames fuel kv.1 ++ exprCallNames fuel kv.2)
    | .binop _ l r => exprCallNames fuel l ++ exprCallNames fuel r
    | .unop _ e1 => exprCallNames fuel e1
    | _ => []

def stmtExprs : Stmt → List PExpr
  | .assign _ v _ => [v]
  | .exprCall _ _ args _ => args
  | .exprE e _ => [e]
  | .funcDef _ _ _ => []
  | .loopOrIf conds _ _ => conds

def hasSelfRec (body : List Stmt) : Bool :=
  let walked := walkStmts (stSizeL body + 1) body
  let fnames := walked.filterMap (fun s =>
    match s with | .funcDef f _ _ => some f | _ => none)
  walked.any (fun s => (stmtExprs s).any (fun e =>
    (exprCallNames (exSize e + 1) e).any (fun f => fnames.contains f)))

/-- `detect_algorithm`: `None` when no graph variable was found
(`if not self.graph_var: return None` — variable names are non-empty
identifiers, so the falsy case is exactly `None`); otherwise the first
matching heuristic in source order, with `"generic"` as fallback. -/
def detect_algorithm (code : String) (states : VarStates) (graph_var : Option String)
    (selfRec : Bool) : Option String :=
  if graph_var.isNone then none
  else
    let cl := strLower code
    if (strIn "heapq" code || strIn "priorityqueue" cl || strIn "heappush" code)
        && (strIn "distance" cl || strIn "dist" cl) then some "dijkstra"
    else if strIn "indegree" cl || strIn "in_degree" cl then some "topological_sort"
    else if strIn "parent" cl && (strIn "union" cl || strIn "find" cl) then
      some "union_find"
    else if (strIn "mst" cl || strIn "minimum spanning tree" cl)
        && (strIn "heapq" code || strIn "priorityqueue" cl) then some "prim"
    else if (strIn ".pop(0)" code || strIn ".popleft()" code)
        && states.any (fun p => p.2.type == "list" || p.2.type == "deque") then
      some "bfs"
    else if strIn ".pop()" code && strIn ".append(" code then some "dfs"
    else if strIn "def " code && strIn "(" code && selfRec then some "dfs_recursive"
    else some "generic"

/-! ## Phase 3 helpers -/

/-- Python truthiness of a statically evaluated value.  `other` holds
`ast.unparse` text, i.e. a non-empty Python string at runtime would be
truthy; we test the recorded text. -/
def pvFalsy : PVal → Bool
  | .int n => n == 0
  | .str s => s.data.isEmpty
  | .bool b => !b
  | .pynone => true
  | .list xs => xs.isEmpty
  | .tuple xs => xs.isEmpty
  | .dict kvs => kvs.isEmpty
  | .setv xs => xs.isEmpty
  | .other rep => rep.data.isEmpty

def pvRank : PVal → Nat
  | .int _ => 0
  | .bool _ => 0
  | .str _ => 1
  | _ => 2

/-- The comparison `sorted` uses on node identifiers.  Matches CPython on
homogeneous `int`/`str` keys (with `bool` coerced to `int`); heterogeneous
keys raise `TypeError` in CPython — that execution reaches the outermost
`except` of `generate_execution_steps` and is covered by the
`ParseOutcome.exn` input case, while the embedding keeps `sorted` total by
ranking. -/
def pvLe (a b : PVal) : Bool :=
  match a, b with
  | .str s, .str t => pyStrLe s t
  | a, b =>
    match pvAsNum a, pvAsNum b with
    | some x, some y => decide (x ≤ y)
    | _, _ => decide (pvRank a ≤ pvRank b)

/-- Python `str()` of a value, for display strings (compact but
deterministic; only feeds descriptions). -/
def pvalStr : Nat → PVal → String
  | 0, _ => "..."
  | fuel + 1, v =>
    match v with
    | .int n => toString n
    | .str s => s
    | .bool b => if b then "True" else "False"
    | .pynone => "None"
    | .list xs => "[" ++ String.intercalate ", " (xs.map (pvalStr fuel)) ++ "]"
    | .tuple xs => "(" ++ String.intercalate ", " (xs.map (pvalStr fuel)) ++ ")"
    | .dict kvs => "\x7b" ++ String.intercalate ", "
        (kvs.map (fun kv => pvalStr fuel kv.1 ++ ": " ++ pvalStr fuel kv.2)) ++ "\x7d"
    | .setv xs => "\x7b" ++ String.intercalate ", " (xs.map (pvalStr fuel)) ++ "\x7d"
    | .other rep => rep

/-- `format_dict_for_display` (source lines 96-122) for a dict value. -/
def format_dict_for_display (kvs : List (PVal × PVal)) : List String :=
  let items := kvs.take 10
  let formatted := items.map (fun kv =>
    let vstr :=
      match kv.2 with
      | .list [] => "[]"
      | .list v =>
        if v.length ≤ 3 then
          "[" ++ String.intercalate ", " (v.map (pvalStr (pvSize kv.2 + 1))) ++ "]"
        else
          "[" ++ String.intercalate ", " ((v.take 3).map (pvalStr (pvSize kv.2 + 1)))
            ++ "... +" ++ toString (v.length - 3) ++ " more]"
      | .dict d => "\x7b..." ++ toString d.length ++ " keys\x7d"
      | v => pvalStr (pvSize v + 1) v
    "  " ++ pvalStr (pvSize kv.1 + 1) kv.1 ++ ": " ++ vstr)
  if 10 < kvs.length then
    formatted ++ ["  ... +" ++ toString (kvs.length - 10) ++ " more"]
  else formatted

/-- Display form of one neighbour entry of the extracted edge map. -/
def nbrStr (nb : Nbr PVal) : String :=
  match nb with
  | .plain v => pvalStr (pvSize v + 1) v
  | .weighted v w =>
    "(" ++ pvalStr (pvSize v + 1) v ++ ", " ++ pvalStr (pvSize w + 1) w ++ ")"

/-- `format_dict_for_display(graph_data)` for the extracted edge map. -/
def formatAdjForDisplay (adj : AdjList PVal) : List String :=
  let items := adj.take 10
  let formatted := items.map (fun kv =>
    let v := kv.2
    let vstr :=
      if v.isEmpty then "[]"
      else if v.length ≤ 3 then
        "[" ++ String.intercalate ", " (v.map nbrStr) ++ "]"
      else
        "[" ++ String.intercalate ", " ((v.take 3).map nbrStr)
          ++ "... +" ++ toString (v.length - 3) ++ " more]"
    "  " ++ pvalStr (pvSize kv.1 + 1) kv.1 ++ ": " ++ vstr)
  if 10 < adj.length then
    formatted ++ ["  ... +" ++ toString (adj.length - 10) ++ " more"]
  else formatted

/-- `for name in ['start', 'source', 'root', 'begin']`: the first of these
whose variable exists and whose value is a key of the graph. -/
def findStart (states : VarStates) (gd : AdjList PVal) : Option PVal :=
  (["start", "source", "root", "begin"].filterMap (fun nm =>
    (lookupVar states nm).bind (fun vs =>
      if vs.value ∈ gd.map Prod.fst then some vs.value else none))).head?

/-! ## Step records and visualization payloads -/

/-- The `visualization` dictionary of a step.  `dsV` covers the
array/stack/queue/visited payloads, whose `"type"` is the string field;
optional fields model keys present in some payloads and absent in others
(`operation = some none` is a present `"operation": None`). -/
inductive Viz where
  | vnone (message : String)
  | verror (message : String)
  | varV (name : String) (value : String) (var_type : String)
  | dictV (name : String) (data : List (PVal × PVal)) (formatted : List String)
  | dsV (type : String) (name : String) (data : List PVal) (capacity : Option Nat)
        (highlight : List Nat) (operation : Option (Option String))
        (removed_value : Option PVal)
  | graphV (name : String) (nodes : List PVal) (edges : AdjList PVal)
        (formatted : List String) (positions : List (PVal × Nat))
  | graphWithDs (graph : GraphView PVal) (data_structure : DSView PVal)
deriving DecidableEq

/-- One step record (`step`/`line`/`code`/`description`/`visualization`). -/
structure Step where
  step : Nat
  line : Nat
  code : String
  description : String
  visualization : Viz
deriving DecidableEq

/-- ASCII upper-casing (Python `str.upper` on the language tag). -/
def upperChar (c : Char) : Char :=
  if 97 ≤ c.toNat ∧ c.toNat ≤ 122 then Char.ofNat (c.toNat - 32) else c

def strUpper (s : String) : String := ⟨s.data.map upperChar⟩

/-- A name quoted with apostrophes, as the f-strings do. -/
def quoted (s : String) : String := "\x27" ++ s ++ "\x27"

/-! ## Phase 4: `process_statement` (source lines 545-764) -/

structure PhaseState where
  stepNum : Nat
  steps : List Step
  states : VarStates

/-- `steps.append({... "step": step_num ...}); step_num += 1`. -/
def appendStep (ps : PhaseState) (mk : Nat → Step) : PhaseState :=
  { ps with steps := ps.steps ++ [mk ps.stepNum], stepNum := ps.stepNum + 1 }

/-- `str.strip()` (structural, so that proofs can evaluate it). -/
def strTrim (s : String) : String :=
  ⟨((s.data.dropWhile Char.isWhitespace).reverse.dropWhile Char.isWhitespace).reverse⟩

/-- `lines[node.lineno - 1].strip() if node.lineno <= len(lines) else ""`. -/
def lineCode (lines : List String) (lineno : Nat) : String :=
  if lineno ≤ lines.length then strTrim ((lines.get? (lineno - 1)).getD "") else ""

/-- `variable_states[obj].get("data", [])` followed by the
`current_data[:] if current_data else []` clone: the tracked list data, or
`[]` when the stored data is `None` or empty. -/
def dataList (vs : VarState) : List PVal :=
  match vs.data with
  | some (.list xs) => xs
  | _ => []

/-- `isinstance(call.args[0], ast.Constant)`. -/
def isConstExpr : PExpr → Bool
  | .constInt _ => true
  | .constStr _ => true
  | .constBool _ => true
  | .constNone => true
  | .constFloat _ => true
  | _ => false

/-- `call.args[0].value == 0` on a constant: `0` and `False` compare equal
to `0` in Python (float constants are not resolved by this embedding and
compare unequal). -/
def isZeroConst : PExpr → Bool
  | .constInt n => n == 0
  | .constBool b => !b
  | _ => false

/-- The assignment branch of `process_statement` for one `ast.Name` target
(source lines 550-659). -/
def processAssignTarget (lines : List String) (value : PExpr) (lineno : Nat)
    (ps : PhaseState) (var_name : String) : PhaseState :=
  let var_type := detect_type value
  let actual := peval (exSize value + 1) value
  let lc := lineCode lines lineno
  if var_type == "dict" then
    let dd := match actual with | .dict kvs => kvs | _ => []
    appendStep ps (fun n =>
      { step := n, line := lineno, code := lc,
        description := "Create dictionary " ++ quoted var_name ++ " with "
          ++ toString dd.length ++ " key(s)",
        visualization := .dictV var_name dd (format_dict_for_display dd) })
  else if var_type == "list" then
    let initial_data :=
      match value with
      | .listE elts => elts.map (peval (exSize value + 1))
      | _ => []
    let vs := (lookupVar ps.states var_name).getD (mkVarState var_name value)
    if vs.is_stack then
      appendStep ps (fun n =>
        { step := n, line := lineno, code := lc,
          description := "Create stack " ++ quoted var_name
            ++ " (LIFO - Last In, First Out) with "
            ++ toString initial_data.length ++ " element(s)",
          visualization := .dsV "stack" var_name initial_data none
            (if initial_data.isEmpty then [] else [initial_data.length - 1])
            (some none) none })
    else if vs.is_queue then
      appendStep ps (fun n =>
        { step := n, line := lineno, code := lc,
          description := "Create queue " ++ quoted var_name ++ " (FIFO) with "
            ++ toString initial_data.length ++ " element(s)",
          visualization := .dsV "queue" var_name initial_data
            (some (max initial_data.length 1))
            (if initial_data.isEmpty then [] else List.range initial_data.length)
            none none })
    else if vs.is_visited then
      appendStep ps (fun n =>
        { step := n, line := lineno, code := lc,
          description := "Create visited set " ++ quoted var_name ++ " with "
            ++ toString initial_data.length ++ " element(s)",
          visualization := .dsV "visited" var_name initial_data
            (some (max initial_data.length 1))
            (if initial_data.isEmpty then [] else List.range initial_data.length)
            none none })
    else
      appendStep ps (fun n =>
        { step := n, line := lineno, code := lc,
          description := "Create array " ++ quoted var_name ++ " with "
            ++ toString initial_data.length ++ " element(s)",
          visualization := .dsV "array" var_name initial_data
            (some (max initial_data.length 1))
            (if initial_data.isEmpty then [] else List.range initial_data.length)
            none none })
  else
    appendStep ps (fun n =>
      { step := n, line := lineno, code := lc,
        description := "Set " ++ var_name ++ " = " ++ pvalStr (pvSize actual + 1) actual,
        visualization := .varV var_name (pvalStr (pvSize actual + 1) actual) var_type })

/-- `process_statement`.  The source recurses into `for`/`while`/`if`
children; the fuel argument (any bound on the nesting depth, supplied as
the total statement count) makes that recursion structural. -/
def process_statement (lines : List String) : Nat → PhaseState → Stmt → PhaseState
  | 0, ps, _ => ps
  | fuel + 1, ps, stmt =>
    match stmt with
    | .assign targets value lineno =>
      targets.foldl (fun ps tgt =>
        match tgt with
        | some var_name => processAssignTarget lines value lineno ps var_name
        | none => ps) ps
    | .exprCall obj method args lineno =>
      match lookupVar ps.states obj with
      | none => ps
      | some vs =>
        if vs.type != "list" then ps
        else if method == "append" then
          match args with
          | [] => ps
          | a :: _ =>
            let new_value := peval (exSize a + 1) a
            let cur := dataList vs
            let cur' := cur ++ [new_value]
            let lc := lineCode lines lineno
            let is_stack := vs.is_stack
            let is_queue := vs.is_queue
            let ps' := appendStep ps (fun n =>
              { step := n, line := lineno, code := lc,
                description := (if is_stack then "Push" else if is_queue then "Enqueue"
                    else "Append") ++ " " ++ pvalStr (pvSize new_value + 1) new_value
                  ++ " to " ++ obj,
                visualization := .dsV
                  (if is_stack then "stack" else if is_queue then "queue" else "array")
                  obj cur' (some cur'.length) [cur'.length - 1]
                  (some (some (if is_stack then "push" else if is_queue then "enqueue"
                    else "push_back")))
                  none })
            { ps' with states := setVar ps'.states obj { vs with data := some (.list cur') } }
        else if method == "pop" then
          let cur := dataList vs
          match cur with
          | [] => ps
          | c0 :: rest =>
            let is_stack := vs.is_stack
            let is_dequeue :=
              match args with
              | a :: _ => isConstExpr a && isZeroConst a
              | [] => false
            let popped := if is_dequeue then c0 else (c0 :: rest).getLast (List.cons_ne_nil c0 rest)
            let cur' := if is_dequeue then rest else (c0 :: rest).dropLast
            let lc := lineCode lines lineno
            let ps' := appendStep ps (fun n =>
              { step := n, line := lineno, code := lc,
                description := (if is_stack then "Pop" else if is_dequeue then "Dequeue"
                    else "Remove") ++ " " ++ pvalStr (pvSize popped + 1) popped
                  ++ " from " ++ obj,
                visualization := .dsV
                  (if is_stack then "stack" else if is_dequeue then "queue" else "array")
                  obj cur' (some (if cur'.isEmpty then 1 else cur'.length)) []
                  (some (some "pop")) (some popped) })
            { ps' with states := setVar ps'.states obj { vs with data := some (.list cur') } }
        else ps
    | .loopOrIf _ children _ =>
      children.foldl (process_statement lines fuel) ps
    | _ => ps

/-! ## `generate_execution_steps` (source lines 430-812) -/

/-- The outcome of `ast.parse(code)` plus the catch-all boundary:
`err` is a `SyntaxError` (line number and message), `exn` is any other
exception raised during analysis (caught by the outermost
`except Exception`), `ok` is the parsed module body. -/
inductive ParseOutcome where
  | err (lineno : Option Nat) (msg : String)
  | exn (msg : String)
  | ok (body : List Stmt)

/-- One invocation's input: the declared language, the raw source text
(used for line display and the detector's substring checks) and the parse
outcome. -/
structure GenInput where
  language : String
  code : String
  parse : ParseOutcome

/-- The unsupported-language step (source lines 438-448). -/
def unsupportedStep (language : String) : Step :=
  { step := 0, line := 1,
    code := "# " ++ strUpper language ++ " visualization coming soon",
    description := "⚠️ Currently only Python is supported. Try Python code with graphs, arrays, stacks, or BFS/DFS!",
    visualization := .vnone "💡 Tip: Supported algorithms include BFS, DFS, Dijkstra, stacks, and basic data structures" }

/-- The `except SyntaxError` step (source lines 784-794): line is
`e.lineno or 0`, both texts carry `str(e)`. -/
def syntaxErrStep (lineno : Option Nat) (msg : String) : Step :=
  { step := 0, line := lineno.getD 0, code := "",
    description := "Syntax Error on line "
      ++ (match lineno with | some n => toString n | none => "None") ++ ": " ++ msg,
    visualization := .verror ("❌ Fix the syntax error: " ++ msg) }

/-- The `except Exception` step (source lines 796-810). -/
def exnStep (msg : String) : Step :=
  { step := 0, line := 0, code := "",
    description := "Analysis Error: " ++ msg,
    visualization := .verror ("⚠️ Could not analyze code: " ++ msg) }

/-- The `if not steps` placeholder (source lines 772-782). -/
def placeholderStep : Step :=
  { step := 0, line := 1, code := "# No visualizable operations found",
    description := "Try code with: BFS/DFS graph traversal, stacks, arrays, queues, or data structures",
    visualization := .vnone "💡 Example:\nstack = []\nstack.append(10)\nstack.append(20)\nstack.pop()\n\nOr try BFS/DFS!" }

/-- One step per simulator frame (source lines 506-517). -/
def simSteps (alg : String) (frames : List (SimFrame PVal)) : List Step :=
  frames.enum.map (fun p =>
    { step := p.1, line := 1,
      code := (if alg == "bfs" then "BFS" else "DFS") ++ " Traversal - Step "
        ++ toString (p.1 + 1) ++ "/" ++ toString frames.length,
      description := (if alg == "bfs" then "Breadth-First Search"
          else "Depth-First Search") ++ " algorithm in progress",
      visualization := .graphWithDs p.2.graph p.2.ds })

/-- The single generic-graph step (source lines 525-538); note it lists
only the dict's keys as nodes here. -/
def graphStep (graph_name : Option String) (gd : AdjList PVal) : Step :=
  let nodes := gd.map Prod.fst
  { step := 0, line := 1,
    code := "graph = " ++ graph_name.getD "None",
    description := "Graph structure with " ++ toString nodes.length ++ " nodes",
    visualization := .graphV (graph_name.getD "graph") nodes gd
      (formatAdjForDisplay gd) (calculate_graph_positions nodes) }

/-- Phase 4 plus the non-empty fallback (source lines 766-782). -/
def phase4 (lines : List String) (body : List Stmt) (states : VarStates) : List Step :=
  let ps := body.foldl (process_statement lines (stSizeL body + 1))
    { stepNum := 0, steps := [], states := states }
  if ps.steps.isEmpty then [placeholderStep] else ps.steps

/-- Phase 3's traversal path (source lines 489-519): when a BFS/DFS
algorithm was detected on a non-empty extracted graph and a truthy start
node is found, return the simulator steps (`some ...` models the early
`return steps`); otherwise fall through (`none`). -/
def graphPhase (σ : List PVal → List PVal) (states : VarStates)
    (graph_data : Option (AdjList PVal)) (algorithm : Option String) :
    Option (List Step) :=
  match graph_data with
  | some gd =>
    if (algorithm == some "bfs" || algorithm == some "dfs") && !gd.isEmpty then
      let s1 := findStart states gd
      let s2 :=
        match s1 with
        | some v => if pvFalsy v then (gd.map Prod.fst).head? else some v
        | none => (gd.map Prod.fst).head?
      match s2 with
      | some sv =>
        if pvFalsy sv then none
        else
          let alg := if algorithm == some "bfs" then "bfs" else "dfs"
          some (simSteps alg (simulate_graph_traversal σ pvLe pvFalsy gd sv alg))
      | none => none
    else none
  | none => none

/-- `code.split('\\n')` (structural, so that proofs can evaluate it):
the list of lines, empty string giving `[""]` as in Python. -/
def splitLinesAux : List Char → List Char → List String
  | [], acc => [⟨acc.reverse⟩]
  | c :: cs, acc =>
    if c = '\n' then ⟨acc.reverse⟩ :: splitLinesAux cs []
    else splitLinesAux cs (c :: acc)

def splitLines (code : String) : List String :=
  splitLinesAux code.data []

/-- The successful-parse body of `generate_execution_steps`
(source lines 450-782): collect states, detect, then the traversal path,
the generic-graph path, or the per-statement walk with its placeholder. -/
def okBranch (σ : List PVal → List PVal) (code : String) (body : List Stmt) : List Step :=
  let lines := splitLines code
  let states := collectAssigns body
  let gv := find_graph states
  let algorithm := detect_algorithm code states gv.1 (hasSelfRec body)
  match graphPhase σ states gv.2 algorithm with
  | some steps => steps
  | none =>
    match gv.2 with
    | some gd =>
      if !gd.isEmpty && algorithm == some "generic" then [graphStep gv.1 gd]
      else phase4 lines body states
    | none => phase4 lines body states

/-- `generate_execution_steps(code, language)`.  `σ` is the set-iteration
oracle threaded to the simulator (phase 3). -/
def generate_execution_steps (σ : List PVal → List PVal) (inp : GenInput) : List Step :=
  if strLower inp.language != "python" then [unsupportedStep inp.language]
  else
    match inp.parse with
    | .err lineno msg => [syntaxErrStep lineno msg]
    | .exn msg => [exnStep msg]
    | .ok body => okBranch σ inp.code body

/-! ### Properties of the traversal path -/

theorem simulate_ne_nil {α : Type} [DecidableEq α] (σ : List α → List α)
    (le : α → α → Bool) (falsy : α → Bool) (g : AdjList α) (s : α) (alg : String)
    (hs : s ∈ g.map Prod.fst) (hf : falsy s = false) :
    simulate_graph_traversal σ le falsy g s alg ≠ [] := by
  rw [simulate_run σ le falsy g s alg
    (mem_simNodes_of_rawNodes le g (mem_rawNodes_of_key g hs)) hf]
  exact List.cons_ne_nil _ _

theorem simSteps_map_step (alg : String) (frames : List (SimFrame PVal)) :
    (simSteps alg frames).map (fun st => st.step)
      = List.range (simSteps alg frames).length := by
  unfold simSteps
  rw [List.map_map, List.length_map, List.enum_length]
  have : ((fun st => st.step) ∘ (fun p : Nat × SimFrame PVal =>
      ({ step := p.1, line := 1,
         code := (if alg == "bfs" then "BFS" else "DFS") ++ " Traversal - Step "
           ++ toString (p.1 + 1) ++ "/" ++ toString frames.length,
         description := (if alg == "bfs" then "Breadth-First Search"
             else "Depth-First Search") ++ " algorithm in progress",
         visualization := .graphWithDs p.2.graph p.2.ds } : Step)))
      = Prod.fst := by
    funext p
    rfl
  rw [this, List.enum_map_fst]

theorem simSteps_length (alg : String) (frames : List (SimFrame PVal)) :
    (simSteps alg frames).length = frames.length := by
  unfold simSteps
  rw [List.length_map, List.enum_length]

theorem findStart_mem (states : VarStates) (gd : AdjList PVal) (v : PVal)
    (h : findStart states gd = some v) : v ∈ gd.map Prod.fst := by
  unfold findStart at h
  have hmem : v ∈ ["start", "source", "root", "begin"].filterMap (fun nm =>
      (lookupVar states nm).bind (fun vs =>
        if vs.value ∈ gd.map Prod.fst then some vs.value else none)) :=
    List.mem_of_mem_head? (by rw [h]; rfl)
  rcases List.mem_filterMap.mp hmem with ⟨nm, _, hbind⟩
  rcases Option.bind_eq_some.mp hbind with ⟨vs, _, hif⟩
  split at hif
  · cases hif
    assumption
  · cases hif

/-- Everything C2 and C8 need about `graphPhase`'s success case: the steps
come from `simSteps` over a run started at a truthy graph key. -/
theorem graphPhase_some {σ : List PVal → List PVal} {states : VarStates}
    {graph_data : Option (AdjList PVal)} {algorithm : Option String}
    {out : List Step} (h : graphPhase σ states graph_data algorithm = some out) :
    ∃ alg gd sv, sv ∈ gd.map Prod.fst ∧ pvFalsy sv = false ∧
      out = simSteps alg (simulate_graph_traversal σ pvLe pvFalsy gd sv alg) := by
  cases graph_data with
  | none =>
    simp [graphPhase] at h
  | some gd =>
    simp only [graphPhase] at h
    split at h
    case isFalse => cases h
    case isTrue hc =>
      split at h
      case h_2 => cases h
      case h_1 sv hs2 =>
        split at h
        case isTrue => cases h
        case isFalse hfal =>
          cases h
          refine ⟨_, gd, sv, ?_, Bool.not_eq_true _ ▸ hfal, rfl⟩
          -- sv is either the found start value or the first key
          have hhead : ∀ (l : List PVal), l.head? = some sv → sv ∈ l := by
            intro l hl
            exact List.mem_of_mem_head? (by rw [hl]; rfl)
          split at hs2
          case h_1 v hfind =>
            split at hs2
            · exact hhead _ hs2
            · cases hs2
              exact findStart_mem states gd _ hfind
          case h_2 =>
            exact hhead _ hs2

theorem graphPhase_some_props {σ : List PVal → List PVal} {states : VarStates}
    {graph_data : Option (AdjList PVal)} {algorithm : Option String}
    {out : List Step} (h : graphPhase σ states graph_data algorithm = some out) :
    out.map (fun st => st.step) = List.range out.length ∧ out ≠ [] := by
  rcases graphPhase_some h with ⟨alg, gd, sv, hmem, hfal, rfl⟩
  refine ⟨simSteps_map_step alg _, ?_⟩
  intro hnil
  have h1 := simSteps_length alg (simulate_graph_traversal σ pvLe pvFalsy gd sv alg)
  rw [hnil] at h1
  have h2 := simulate_ne_nil σ pvLe pvFalsy gd sv alg hmem hfal
  cases hne : simulate_graph_traversal σ pvLe pvFalsy gd sv alg with
  | nil => exact h2 hne
  | cons a l =>
    rw [hne] at h1
    simp at h1

/-! ### The step-index invariant (claim C8) -/

/-- `steps` carries indices `0..n-1` in order and `step_num` equals the
count — the invariant the phase-4 walk maintains. -/
def Indexed (ps : PhaseState) : Prop :=
  ps.steps.map (fun st => st.step) = List.range ps.steps.length
  ∧ ps.stepNum = ps.steps.length

theorem appendStep_indexed (ps : PhaseState) (mk : Nat → Step)
    (hmk : ∀ n, (mk n).step = n) (h : Indexed ps) : Indexed (appendStep ps mk) := by
  obtain ⟨h1, h2⟩ := h
  constructor
  · simp only [appendStep, List.map_append, List.length_append, List.map_cons,
      List.map_nil, List.length_cons, List.length_nil]
    rw [h1, hmk, h2, ← List.range_succ]
  · simp [appendStep, h2]

theorem processAssignTarget_indexed (lines : List String) (value : PExpr)
    (lineno : Nat) (ps : PhaseState) (var_name : String) (h : Indexed ps) :
    Indexed (processAssignTarget lines value lineno ps var_name) := by
  unfold processAssignTarget
  dsimp only
  repeat' split
  all_goals exact appendStep_indexed _ _ (fun _ => rfl) h

theorem foldl_indexed {β : Type} (f : PhaseState → β → PhaseState)
    (hf : ∀ ps b, Indexed ps → Indexed (f ps b)) :
    ∀ (l : List β) (ps : PhaseState), Indexed ps → Indexed (l.foldl f ps) := by
  intro l
  induction l with
  | nil =>
    intro ps h
    exact h
  | cons b rest ih =>
    intro ps h
    exact ih _ (hf ps b h)

theorem setStates_indexed (ps : PhaseState) (X : VarStates) (h : Indexed ps) :
    Indexed { ps with states := X } := h

theorem process_statement_indexed (lines : List String) :
    ∀ (fuel : Nat) (stmt : Stmt) (ps : PhaseState),
      Indexed ps → Indexed (process_statement lines fuel ps stmt) := by
  intro fuel
  induction fuel with
  | zero =>
    intro stmt ps h
    exact h
  | succ fuel ih =>
    intro stmt ps h
    cases stmt with
    | assign targets value lineno =>
      simp only [process_statement]
      refine foldl_indexed _ ?_ targets ps h
      intro ps' tgt h'
      cases tgt with
      | some nm => exact processAssignTarget_indexed lines value lineno ps' nm h'
      | none => exact h'
    | exprCall obj method args lineno =>
      simp only [process_statement]
      cases lookupVar ps.states obj with
      | none => exact h
      | some vs =>
        dsimp only
        split
        · exact h
        · split
          · -- append
            cases args with
            | nil => exact h
            | cons a rest =>
              exact setStates_indexed _ _ (appendStep_indexed _ _ (fun _ => rfl) h)
          · -- pop
            split
            · cases hc : dataList vs with
              | nil => exact h
              | cons c0 rest =>
                exact setStates_indexed _ _ (appendStep_indexed _ _ (fun _ => rfl) h)
            · exact h
    | exprE e lineno =>
      exact h
    | funcDef fname body lineno =>
      exact h
    | loopOrIf conds children lineno =>
      simp only [process_statement]
      exact foldl_indexed _ (fun ps' st h' => ih st ps' h') children ps h

theorem phase4_props (lines : List String) (body : List Stmt) (states : VarStates) :
    (phase4 lines body states).map (fun st => st.step)
      = List.range (phase4 lines body states).length
    ∧ phase4 lines body states ≠ [] := by
  unfold phase4
  dsimp only
  have hI : Indexed (body.foldl (process_statement lines (stSizeL body + 1))
      { stepNum := 0, steps := [], states := states }) :=
    foldl_indexed _ (fun ps st h => process_statement_indexed lines _ st ps h)
      body _ ⟨rfl, rfl⟩
  split
  · exact ⟨rfl, List.cons_ne_nil _ _⟩
  · next hne =>
    refine ⟨hI.1, ?_⟩
    intro hnil
    rw [hnil] at hne
    simp at hne

theorem okBranch_props (σ : List PVal → List PVal) (code : String) (body : List Stmt) :
    (okBranch σ code body).map (fun st => st.step)
      = List.range (okBranch σ code body).length
    ∧ okBranch σ code body ≠ [] := by
  unfold okBranch
  dsimp only
  cases hgp : graphPhase σ (collectAssigns body) (find_graph (collectAssigns body)).2
      (detect_algorithm code (collectAssigns body) (find_graph (collectAssigns body)).1
        (hasSelfRec body)) with
  | some steps => exact graphPhase_some_props hgp
  | none =>
    dsimp only
    cases hgd : (find_graph (collectAssigns body)).2 with
    | some gd =>
      dsimp only
      split
      · exact ⟨rfl, List.cons_ne_nil _ _⟩
      · exact phase4_props _ body _
    | none => exact phase4_props _ body _

/-- C8: on every code path of `generate_execution_steps`, the emitted
steps are numbered consecutively from 0: the list of `step` fields equals
`0, 1, ..., n-1` where `n` is the number of steps. -/
theorem C8_theorem (σ : List PVal → List PVal) (inp : GenInput) :
    (generate_execution_steps σ inp).map (fun st => st.step)
      = List.range (generate_execution_steps σ inp).length := by
  unfold generate_execution_steps
  split
  · rfl
  · split
    · rfl
    · rfl
    · exact (okBranch_props σ inp.code _).1

/-- C2: `generate_execution_steps` always returns a list of at least one
step: the unsupported-language step, an error step, the traversal or
graph-structure steps, the per-statement steps, or the placeholder. -/
theorem C2_theorem (σ : List PVal → List PVal) (inp : GenInput) :
    1 ≤ (generate_execution_steps σ inp).length := by
  unfold generate_execution_steps
  split
  · exact Nat.le_refl 1
  · split
    · exact Nat.le_refl 1
    · exact Nat.le_refl 1
    · exact List.length_pos.mpr (okBranch_props σ inp.code _).2

/-! ## Claim C5: the detector's closed tag set and priority order -/

/-- The spec's stated decision procedure for `detect_algorithm`, written
from the claim's words: the seven rules tried in exactly the claimed
priority order, then the `"generic"` fallback. -/
def specPriorityChain (code : String) (states : VarStates) (selfRec : Bool) :
    Option String :=
  let cl := strLower code
  if (strIn "heapq" code || strIn "priorityqueue" cl || strIn "heappush" code)
      && (strIn "distance" cl || strIn "dist" cl) then some "dijkstra"
  else if strIn "indegree" cl || strIn "in_degree" cl then some "topological_sort"
  else if strIn "parent" cl && (strIn "union" cl || strIn "find" cl) then
    some "union_find"
  else if (strIn "mst" cl || strIn "minimum spanning tree" cl)
      && (strIn "heapq" code || strIn "priorityqueue" cl) then some "prim"
  else if (strIn ".pop(0)" code || strIn ".popleft()" code)
      && states.any (fun p => p.2.type == "list" || p.2.type == "deque") then
    some "bfs"
  else if strIn ".pop()" code && strIn ".append(" code then some "dfs"
  else if strIn "def " code && strIn "(" code && selfRec then some "dfs_recursive"
  else some "generic"

/-- C5: whenever a graph variable was found, `detect_algorithm` follows
exactly the claimed priority chain, and its answer is one of the eight
closed tags. -/
theorem C5_theorem (code : String) (states : VarStates) (v : String) (selfRec : Bool) :
    detect_algorithm code states (some v) selfRec
      = specPriorityChain code states selfRec
    ∧ detect_algorithm code states (some v) selfRec ∈ allowedTags.map some := by
  refine ⟨rfl, ?_⟩
  unfold detect_algorithm
  dsimp only
  repeat' split
  all_goals first
  | decide
  | simp_all

/-- C5 counterexample: with no graph variable extracted the detector
returns `None`, which is outside the claimed closed set of tags. -/
theorem C5_counterexample :
    detect_algorithm "" [] none false = none
    ∧ (allowedTags.map some).all (fun o => o != detect_algorithm "" [] none false)
        = true := by
  exact ⟨rfl, by decide⟩

/-! ## Claims C6 and C7: concrete scenarios -/

theorem isSubList_append_left (ns : List Char) :
    ∀ pre : List Char, isSubList ns (pre ++ ns) = true := by
  intro pre
  induction pre with
  | nil =>
    cases ns with
    | nil => rfl
    | cons c cs =>
      simp [isSubList, List.isPrefixOf_iff_prefix]
  | cons p pre ih =>
    have ih' : isSubList ns (List.append pre ns) = true := ih
    simp only [List.cons_append, isSubList, ih', Bool.or_true]

theorem strIn_append (pre s : String) : strIn s (pre ++ s) = true := by
  unfold strIn
  have h : isSubList s.data (pre.data ++ s.data) = true := isSubList_append_left s.data pre.data
  have hd : (pre ++ s).data = pre.data ++ s.data := rfl
  rw [hd, h, Bool.or_true]

/-- The `'if x = 5:'` input: CPython raises `SyntaxError` with
`lineno = 1`; `str(e)` carries the diagnostic text. -/
def scenarioC : GenInput :=
  { language := "python", code := "if x = 5:",
    parse := .err (some 1) "invalid syntax (<unknown>, line 1)" }

/-- C6: a failing parse with a populated line number yields exactly one
step: an error visualization whose `line` is the syntax error's line and
whose description contains the diagnostic message; for `'if x = 5:'`
the single step is spelled out (line 1, nonzero). -/
theorem C6_theorem (σ : List PVal → List PVal) (code msg : String) (n : Nat) :
    generate_execution_steps σ { language := "python", code := code, parse := .err (some n) msg }
      = [syntaxErrStep (some n) msg]
    ∧ (syntaxErrStep (some n) msg).line = n
    ∧ (match (syntaxErrStep (some n) msg).visualization with
        | .verror _ => true
        | _ => false) = true
    ∧ strIn msg (syntaxErrStep (some n) msg).description = true
    ∧ generate_execution_steps σ scenarioC
      = [{ step := 0, line := 1, code := "",
           description := "Syntax Error on line 1: invalid syntax (<unknown>, line 1)",
           visualization := .verror "❌ Fix the syntax error: invalid syntax (<unknown>, line 1)" }]
    ∧ (generate_execution_steps σ scenarioC).all
        (fun st => st.line != 0 && strIn "invalid syntax" st.description) = true := by
  refine ⟨rfl, rfl, rfl, ?_, rfl, rfl⟩
  exact strIn_append ("Syntax Error on line " ++ toString n ++ ": ") msg

/-- The four-line stack program `stack = []; stack.append(10);
stack.append(20); stack.pop()` with its parsed body. -/
def scenarioB : GenInput :=
  { language := "python",
    code := "stack = []\nstack.append(10)\nstack.append(20)\nstack.pop()",
    parse := .ok
      [ .assign [some "stack"] (.listE []) 1,
        .exprCall "stack" "append" [.constInt 10] 2,
        .exprCall "stack" "append" [.constInt 20] 3,
        .exprCall "stack" "pop" [] 4 ] }

/-- C7: the stack scenario produces exactly four steps — creation with
empty data, push of 10 (data `[10]`), push of 20 (data `[10, 20]`), pop
(data `[10]`, removed value 20) — all four visualized as a stack. -/
theorem C7_theorem (σ : List PVal → List PVal) :
    generate_execution_steps σ scenarioB
      = [ { step := 0, line := 1, code := "stack = []",
            description := "Create stack 'stack' (LIFO - Last In, First Out) with 0 element(s)",
            visualization := .dsV "stack" "stack" [] none [] (some none) none },
          { step := 1, line := 2, code := "stack.append(10)",
            description := "Push 10 to stack",
            visualization := .dsV "stack" "stack" [.int 10] (some 1) [0]
              (some (some "push")) none },
          { step := 2, line := 3, code := "stack.append(20)",
            description := "Push 20 to stack",
            visualization := .dsV "stack" "stack" [.int 10, .int 20] (some 2) [1]
              (some (some "push")) none },
          { step := 3, line := 4, code := "stack.pop()",
            description := "Pop 20 from stack",
            visualization := .dsV "stack" "stack" [.int 10] (some 1) []
              (some (some "pop")) (some (.int 20)) } ] := by
  rfl

/-- C10: a `.pop(...)` call on a list-typed variable whose tracked data
is empty leaves the walk state untouched — no step is emitted and the
variable states are unchanged (the `if current_data:` guard makes the
element accesses unreachable). -/
theorem C10_theorem (lines : List String) (fuel : Nat) (ps : PhaseState)
    (obj : String) (args : List PExpr) (lineno : Nat) (vs : VarState)
    (hvs : lookupVar ps.states obj = some vs) (hty : vs.type = "list")
    (hdata : dataList vs = []) :
    process_statement lines (fuel + 1) ps (.exprCall obj "pop" args lineno) = ps := by
  simp only [process_statement]
  rw [hvs]
  dsimp only
  rw [hty, hdata]
  rfl

/-- C10 witness: an empty tracked list named `stack`; popping from it is
the identity on the phase state. -/
theorem C10_witness :
    (let vs : VarState :=
      { type := "list", value := .list [], data := some (.list []),
        is_stack := true, is_queue := false, is_visited := false }
     let ps : PhaseState := { stepNum := 0, steps := [], states := [("stack", vs)] }
     process_statement ["stack.pop()"] 1 ps (.exprCall "stack" "pop" [] 1) = ps) :=
  C10_theorem ["stack.pop()"] 0 _ "stack" [] 1 _ rfl rfl rfl
